import Mathlib

/-
Verification of the MSA reuse / extraction pipeline
(batch_reuse_msa.py, tools/msa_batch_extract_chain1.py, tools/msa_extract_chain1.py).

JSON documents are modelled by a mutually inductive tree type so that all
functions translated from the Python source are structurally recursive (or
structurally recursive on an explicit fuel argument bounded by the tree size)
and therefore evaluate inside the kernel.

Numbers are modelled as integers (the documents manipulated by the pipeline
only carry integer fields such as version numbers and template indices).
Python string operations are modelled on the character lists underlying Lean
strings; key lowering is modelled on ASCII, which covers every key the
pipeline inspects.
-/

mutual

inductive J where
  | null
  | bool (b : Bool)
  | num (n : Int)
  | str (s : String)
  | arr (l : JList)
  | obj (l : JFields)
deriving DecidableEq

inductive JList where
  | nil
  | cons (hd : J) (tl : JList)
deriving DecidableEq

inductive JFields where
  | nil
  | cons (key : String) (val : J) (tl : JFields)
deriving DecidableEq

end

-- Size measure on documents, used as fuel bound and for the pruning
-- decrease theorem; every node counts one.
mutual

def jsize : J → Nat
  | .arr l => 1 + jsizeL l
  | .obj l => 1 + jsizeF l
  | _ => 1

def jsizeL : JList → Nat
  | .nil => 0
  | .cons h t => 1 + jsize h + jsizeL t

def jsizeF : JFields → Nat
  | .nil => 0
  | .cons _ v t => 1 + jsize v + jsizeF t

end

theorem jsize_pos (j : J) : 0 < jsize j := by
  cases j <;> simp [jsize]

-- Single-motive induction principles (the auto-generated recursors of the
-- mutual family have several motives, which the induction tactic rejects).

theorem JFieldsInd {motive : JFields → Prop} (nil : motive .nil)
    (cons : ∀ k v t, motive t → motive (.cons k v t)) : ∀ l, motive l
  | .nil => nil
  | .cons k v t => cons k v t (JFieldsInd nil cons t)

theorem JListInd {motive : JList → Prop} (nil : motive .nil)
    (cons : ∀ h t, motive t → motive (.cons h t)) : ∀ l, motive l
  | .nil => nil
  | .cons h t => cons h t (JListInd nil cons t)

/-- Python dict lookup on the ordered field list (keys are unique in any
document produced by json.loads, so first match is the Python semantics). -/
def fget : JFields → String → Option J
  | .nil, _ => none
  | .cons k v t, s => if k = s then some v else fget t s

/-- Python `key in dict`. -/
def fhas (l : JFields) (s : String) : Bool := (fget l s).isSome

/-- Python dict assignment d[k] = v: replaces the value in place if the key
exists, else appends the pair (insertion order semantics). -/
def fset : JFields → String → J → JFields
  | .nil, k, v => .cons k v .nil
  | .cons k0 v0 t, k, v => if k0 = k then .cons k0 v t else .cons k0 v0 (fset t k v)

def jlen : JList → Nat
  | .nil => 0
  | .cons _ t => 1 + jlen t

/-- List indexing lst[i]. -/
def lget : JList → Nat → Option J
  | .nil, _ => none
  | .cons h _, 0 => some h
  | .cons _ t, n + 1 => lget t n

def jlistContains : JList → J → Bool
  | .nil, _ => false
  | .cons h t, x => h = x || jlistContains t x

theorem fget_size : ∀ (l : JFields) (k : String) (v : J),
    fget l k = some v → jsize v < jsizeF l
  | .cons k0 v0 t, k, v, h => by
    simp only [fget] at h
    split at h
    · cases h; simp [jsizeF]; omega
    · have := fget_size t k v h
      simp [jsizeF]; omega

theorem lget_size : ∀ (l : JList) (n : Nat) (v : J),
    lget l n = some v → jsize v < jsizeL l
  | .cons h0 t, 0, v, h => by
    simp only [lget] at h; cases h; simp [jsizeL]; omega
  | .cons h0 t, n + 1, v, h => by
    simp only [lget] at h
    have := lget_size t n v h
    simp [jsizeL]; omega

/- ── ASCII string helpers (Python str.lower, str.startswith, substring) ── -/

def charLower (c : Char) : Char :=
  if 'A' ≤ c && c ≤ 'Z' then Char.ofNat (c.toNat + 32) else c

def strLower (s : String) : String := String.mk (s.data.map charLower)

def strStarts (s pre : String) : Bool := pre.data.isPrefixOf s.data

/-- Python `needle in haystack` on strings. -/
def listContainsSub (hay needle : List Char) : Bool :=
  match hay with
  | [] => needle.isEmpty
  | _ :: t => needle.isPrefixOf hay || listContainsSub t needle

/- ── Paired-alignment keys (msa_batch_extract_chain1.py lines 12-13) ── -/

def PAIR_CONTAINER_KEYS : List String :=
  ["paired_msa", "paired_msas", "complex_msa", "interaction_msa"]

def DROP_EXACT_KEYS : List String := "pairedMsa" :: PAIR_CONTAINER_KEYS

/-- Test `k in DROP_EXACT_KEYS or k.lower().startswith("paired")`, the key
filter applied by strip_paired_blocks, prune_chain_dimension and
output_is_complete. -/
def isPairedKey (k : String) : Bool :=
  DROP_EXACT_KEYS.contains k || strStarts (strLower k) "paired"

/- ── strip_paired_blocks (msa_batch_extract_chain1.py lines 105-116) ── -/

mutual

def strip_paired_blocks : J → J
  | .obj l => .obj (stripFieldsAux l)
  | .arr l => .arr (stripListAux l)
  | x => x

def stripFieldsAux : JFields → JFields
  | .nil => .nil
  | .cons k v t =>
    if isPairedKey k then stripFieldsAux t
    else .cons k (strip_paired_blocks v) (stripFieldsAux t)

def stripListAux : JList → JList
  | .nil => .nil
  | .cons h t => .cons (strip_paired_blocks h) (stripListAux t)

end

/- ── Claim-side predicate: no mapping anywhere carries a paired key ── -/

mutual

def noPairedJ : J → Bool
  | .obj l => noPairedFlds l
  | .arr l => noPairedList l
  | _ => true

def noPairedFlds : JFields → Bool
  | .nil => true
  | .cons k v t => !isPairedKey k && noPairedJ v && noPairedFlds t

def noPairedList : JList → Bool
  | .nil => true
  | .cons h t => noPairedJ h && noPairedList t

end

/- ── Chain-likeness heuristics (msa_batch_extract_chain1.py lines 93-103).
The batch tool includes unpairedMsa and pairedMsa among the hint keys. ── -/

def CHAIN_HINTS : List String :=
  ["msa", "templates", "sequence", "seq", "chain_id", "alignments",
   "unpairedMsa", "pairedMsa"]

def looksHintAux : JFields → Bool
  | .nil => false
  | .cons k _ t => CHAIN_HINTS.contains k || looksHintAux t

def looks_chain_like_element : J → Bool
  | .obj l => looksHintAux l
  | _ => false

def countDicts : JList → Nat
  | .nil => 0
  | .cons (.obj _) t => 1 + countDicts t
  | .cons _ t => countDicts t

def anyHintElement : JList → Bool
  | .nil => false
  | .cons h t => looks_chain_like_element h || anyHintElement t

/-- Translation of is_chain_like_list: at least two elements, at least
max(2, len/2) dict elements, and some dict element carries a hint key
(looks_chain_like_element is false on non-dicts, so testing every element
equals testing the dict elements only). -/
def is_chain_like_list (l : JList) : Bool :=
  if jlen l < 2 then false
  else if countDicts l < max 2 (jlen l / 2) then false
  else anyHintElement l

/- ── prune_chain_dimension (msa_batch_extract_chain1.py lines 154-196) ──
The tools always call it with the default chain_keys = ("A", "B"); the
selected index is 0 or 1 (choose_chain_index_by_sequence only returns those),
so chain_keys[keep_index] is modelled totally as A-for-0 / B-otherwise.
Fuel is bounded by the document size; the top-level wrapper supplies enough
fuel for the zero-fuel branches never to be reached. -/

def chainKeyAt (i : Nat) : String := if i = 0 then "A" else "B"

def oneTwoKeyAt (i : Nat) : String := if i = 0 then "1" else "2"

def chainNKeyAt (i : Nat) : String := if i = 0 then "chain_1" else "chain_2"

def elemHas (e : J) (k : String) : Bool :=
  match e with
  | .obj l => fhas l k
  | _ => false

def allDicts : JList → Bool
  | .nil => true
  | .cons (.obj _) t => allDicts t
  | .cons _ _ => false

def anyProtLig : JList → Bool
  | .nil => false
  | .cons h t => elemHas h "protein" || elemHas h "ligand" || anyProtLig t

/-- Recognizer for the special-cased sequences array of protein/ligand
entries: nonempty, all elements dicts, some element with protein or ligand. -/
def isSeqEntryList (l : JList) : Bool :=
  !(l = .nil) && allDicts l && anyProtLig l

mutual

def pruneF (f : Nat) (i : Nat) (j : J) : J :=
  match f, j with
  | 0, j => j
  | f + 1, .obj l =>
    let ab := fhas l "A" && fhas l "B"
    let oneTwo := (fhas l "1" && fhas l "2") || (fhas l "chain_1" && fhas l "chain_2")
    let keyKeep :=
      if oneTwo && (fhas l "chain_1" || fhas l "chain_2") then chainNKeyAt i
      else if ab then chainKeyAt i
      else oneTwoKeyAt i
    if ab || oneTwo then
      match fget l keyKeep with
      | some v => pruneF f i v
      | none => .obj (pruneFldsF f i l)
    else .obj (pruneFldsF f i l)
  | f + 1, .arr l =>
    if isSeqEntryList l then .arr (pruneSeqF f i 0 l)
    else if is_chain_like_list l && decide (i < jlen l) then
      match lget l i with
      | some v => pruneF f i v
      | none => .arr (pruneListF f i l)
    else .arr (pruneListF f i l)
  | _ + 1, j => j
termination_by structural f

def pruneFldsF (f : Nat) (i : Nat) (l : JFields) : JFields :=
  match f, l with
  | 0, l => l
  | _ + 1, .nil => .nil
  | f + 1, .cons k v t =>
    if isPairedKey k then pruneFldsF f i t
    else if k = "seq" then
      match v with
      | .obj vl =>
        match fget vl (chainKeyAt i) with
        | some v1 => .cons k (pruneF f i v1) (pruneFldsF f i t)
        | none =>
          match fget vl (toString (i + 1)) with
          | some v2 => .cons k (pruneF f i v2) (pruneFldsF f i t)
          | none => .cons k (pruneF f i v) (pruneFldsF f i t)
      | _ => .cons k (pruneF f i v) (pruneFldsF f i t)
    else .cons k (pruneF f i v) (pruneFldsF f i t)
termination_by structural f

def pruneListF (f : Nat) (i : Nat) (l : JList) : JList :=
  match f, l with
  | 0, l => l
  | _ + 1, .nil => .nil
  | f + 1, .cons h t => .cons (pruneF f i h) (pruneListF f i t)
termination_by structural f

def pruneSeqF (f : Nat) (i : Nat) (seen : Nat) (l : JList) : JList :=
  match f, l with
  | 0, l => l
  | _ + 1, .nil => .nil
  | f + 1, .cons el t =>
    if elemHas el "ligand" then .cons (pruneF f i el) (pruneSeqF f i seen t)
    else if elemHas el "protein" then
      (if seen = i then .cons (pruneF f i el) (pruneSeqF f i (seen + 1) t)
       else pruneSeqF f i (seen + 1) t)
    else pruneSeqF f i seen t
termination_by structural f

end

def prune_chain_dimension (i : Nat) (j : J) : J := pruneF (jsize j) i j

example :
    prune_chain_dimension 0 (J.obj (.cons "A" (J.num 1) (.cons "B" (J.num 2) .nil)))
      = J.num 1 := by decide

example :
    prune_chain_dimension 1
        (J.arr (.cons (J.obj (.cons "protein" J.null .nil))
          (.cons (J.obj (.cons "protein" (J.num 7) .nil)) .nil)))
      = J.arr (.cons (J.obj (.cons "protein" (J.num 7) .nil)) .nil) := by decide

example :
    prune_chain_dimension 0
        (J.obj (.cons "seq" (J.obj (.cons "A" (J.obj (.cons "A" (J.num 5) .nil)) .nil)) .nil))
      = J.obj (.cons "seq" (J.obj (.cons "A" (J.num 5) .nil)) .nil) := by decide

/- ── Claim C1 auxiliary: every dict rebuilt by pruneF filters paired keys,
so enough fuel guarantees a paired-free result. ── -/

theorem fget_size2 {l : JFields} {k : String} {v : J} (h : fget l k = some v) :
    jsize v < jsizeF l := fget_size l k v h

theorem lget_size2 {l : JList} {n : Nat} {v : J} (h : lget l n = some v) :
    jsize v < jsizeL l := lget_size l n v h

theorem pruneF_noPaired : ∀ f : Nat,
    (∀ i j, jsize j ≤ f → noPairedJ (pruneF f i j) = true) ∧
    (∀ i l, jsizeF l ≤ f → noPairedFlds (pruneFldsF f i l) = true) ∧
    (∀ i l, jsizeL l ≤ f → noPairedList (pruneListF f i l) = true) ∧
    (∀ i s l, jsizeL l ≤ f → noPairedList (pruneSeqF f i s l) = true) := by
  intro f
  induction f with
  | zero =>
    refine ⟨?_, ?_, ?_, ?_⟩
    · intro i j h; have := jsize_pos j; omega
    · intro i l h
      cases l with
      | nil => simp [pruneFldsF, noPairedFlds]
      | cons k v t => simp [jsizeF] at h
    · intro i l h
      cases l with
      | nil => simp [pruneListF, noPairedList]
      | cons h0 t => simp [jsizeL] at h
    · intro i s l h
      cases l with
      | nil => simp [pruneSeqF, noPairedList]
      | cons h0 t => simp [jsizeL] at h
  | succ f ih =>
    obtain ⟨ihJ, ihF, ihL, ihS⟩ := ih
    refine ⟨?_, ?_, ?_, ?_⟩
    · intro i j h
      cases j with
      | obj l =>
        have hl : jsizeF l ≤ f := by simp [jsize] at h; omega
        simp only [pruneF]
        split
        · split
          · rename_i hv
            have hb := fget_size2 hv
            exact ihJ i _ (by omega)
          · simpa [noPairedJ] using ihF i l hl
        · simpa [noPairedJ] using ihF i l hl
      | arr l =>
        have hl : jsizeL l ≤ f := by simp [jsize] at h; omega
        simp only [pruneF]
        split
        · simpa [noPairedJ] using ihS i 0 l hl
        · split
          · split
            · rename_i hv
              have hb := lget_size2 hv
              exact ihJ i _ (by omega)
            · simpa [noPairedJ] using ihL i l hl
          · simpa [noPairedJ] using ihL i l hl
      | null => simp [pruneF, noPairedJ]
      | bool b => simp [pruneF, noPairedJ]
      | num n => simp [pruneF, noPairedJ]
      | str s => simp [pruneF, noPairedJ]
    · intro i l h
      cases l with
      | nil => simp [pruneFldsF, noPairedFlds]
      | cons k v t =>
        have hv : jsize v ≤ f := by simp [jsizeF] at h; omega
        have ht : jsizeF t ≤ f := by simp [jsizeF] at h; omega
        simp only [pruneFldsF]
        split
        · exact ihF i t ht
        · rename_i hkp
          split
          · split
            · rename_i vl
              simp only [jsize] at hv
              split
              · rename_i v1 hv1
                have hb := fget_size2 hv1
                have hnp := ihJ i v1 (by omega)
                simp [noPairedFlds, hkp, hnp, ihF i t ht]
              · split
                · rename_i v2 hv2
                  have hb := fget_size2 hv2
                  have hnp := ihJ i v2 (by omega)
                  simp [noPairedFlds, hkp, hnp, ihF i t ht]
                · simp [noPairedFlds, hkp,
                    ihJ i _ (by simp [jsize]; omega : jsize (J.obj vl) ≤ f), ihF i t ht]
            · simp [noPairedFlds, hkp, ihJ i v hv, ihF i t ht]
          · simp [noPairedFlds, hkp, ihJ i v hv, ihF i t ht]
    · intro i l h
      cases l with
      | nil => simp [pruneListF, noPairedList]
      | cons h0 t =>
        have hh : jsize h0 ≤ f := by simp [jsizeL] at h; omega
        have ht : jsizeL t ≤ f := by simp [jsizeL] at h; omega
        simp [pruneListF, noPairedList, ihJ i h0 hh, ihL i t ht]
    · intro i s l h
      cases l with
      | nil => simp [pruneSeqF, noPairedList]
      | cons el t =>
        have hh : jsize el ≤ f := by simp [jsizeL] at h; omega
        have ht : jsizeL t ≤ f := by simp [jsizeL] at h; omega
        simp only [pruneSeqF]
        split
        · simp [noPairedList, ihJ i el hh, ihS i s t ht]
        · split
          · split
            · simp [noPairedList, ihJ i el hh, ihS i (s + 1) t ht]
            · exact ihS i (s + 1) t ht
          · exact ihS i s t ht

/-- C1: for every input document and selected chain index i in 0 or 1, the
document returned by prune_chain_dimension applied after strip_paired_blocks
contains no mapping anywhere with a key that case-insensitively begins with
paired or lies in the fixed pairing-container set. -/
theorem C1_prune_no_paired_residue (d : J) (i : Nat) (h : i = 0 ∨ i = 1) :
    noPairedJ (prune_chain_dimension i (strip_paired_blocks d)) = true :=
  (pruneF_noPaired (jsize (strip_paired_blocks d))).1 i (strip_paired_blocks d)
    (Nat.le_refl _)

theorem C1_prune_no_paired_residue_witness :
    ((1 : Nat) = 0 ∨ (1 : Nat) = 1) ∧
      noPairedJ (prune_chain_dimension 1 (strip_paired_blocks
        (J.obj (.cons "pairedMsa" (J.num 3)
          (.cons "x" (J.obj (.cons "paired_msa" J.null .nil)) .nil))))) = true :=
  ⟨Or.inr rfl,
    C1_prune_no_paired_residue
      (J.obj (.cons "pairedMsa" (J.num 3)
        (.cons "x" (J.obj (.cons "paired_msa" J.null .nil)) .nil))) 1 (Or.inr rfl)⟩

/- ── Claim C3: weak size monotonicity and the fix-or-shrink dichotomy for
prune_chain_dimension. A single application is not idempotent (see the
counterexample below), but every application either fixes the document or
strictly shrinks it, so iteration reaches a fixed point. ── -/

theorem pruneF_size_le : ∀ f : Nat,
    (∀ i j, jsize (pruneF f i j) ≤ jsize j) ∧
    (∀ i l, jsizeF (pruneFldsF f i l) ≤ jsizeF l) ∧
    (∀ i l, jsizeL (pruneListF f i l) ≤ jsizeL l) ∧
    (∀ i s l, jsizeL (pruneSeqF f i s l) ≤ jsizeL l) := by
  intro f
  induction f with
  | zero =>
    exact ⟨fun i j => by simp [pruneF], fun i l => by simp [pruneFldsF],
      fun i l => by simp [pruneListF], fun i s l => by simp [pruneSeqF]⟩
  | succ f ih =>
    obtain ⟨ihJ, ihF, ihL, ihS⟩ := ih
    refine ⟨?_, ?_, ?_, ?_⟩
    · intro i j
      cases j with
      | obj l =>
        simp only [pruneF]
        split
        · split
          · rename_i v hv
            have hb := fget_size2 hv
            have := ihJ i v
            simp [jsize]; omega
          · have := ihF i l; simp [jsize]; omega
        · have := ihF i l; simp [jsize]; omega
      | arr l =>
        simp only [pruneF]
        split
        · have := ihS i 0 l; simp [jsize]; omega
        · split
          · split
            · rename_i v hv
              have hb := lget_size2 hv
              have := ihJ i v
              simp [jsize]; omega
            · have := ihL i l; simp [jsize]; omega
          · have := ihL i l; simp [jsize]; omega
      | null => simp [pruneF]
      | bool b => simp [pruneF]
      | num n => simp [pruneF]
      | str s => simp [pruneF]
    · intro i l
      cases l with
      | nil => simp [pruneFldsF]
      | cons k v t =>
        have ht := ihF i t
        simp only [pruneFldsF]
        split
        · simp [jsizeF]; have := jsize_pos v; omega
        · split
          · split
            · rename_i vl
              split
              · rename_i v1 hv1
                have hb := fget_size2 hv1
                have h1 := ihJ i v1
                simp [jsizeF, jsize]; omega
              · split
                · rename_i v2 hv2
                  have hb := fget_size2 hv2
                  have h1 := ihJ i v2
                  simp [jsizeF, jsize]; omega
                · have h1 := ihJ i (J.obj vl)
                  simp [jsizeF]; omega
            · have h1 := ihJ i v
              simp [jsizeF]; omega
          · have h1 := ihJ i v
            simp [jsizeF]; omega
    · intro i l
      cases l with
      | nil => simp [pruneListF]
      | cons h0 t =>
        have h1 := ihJ i h0
        have ht := ihL i t
        simp [pruneListF, jsizeL]; omega
    · intro i s l
      cases l with
      | nil => simp [pruneSeqF]
      | cons el t =>
        have h1 := ihJ i el
        have ht := ihS i s t
        have ht1 := ihS i (s + 1) t
        simp only [pruneSeqF]
        split
        · simp [jsizeL]; omega
        · split
          · split
            · simp [jsizeL]; omega
            · simp [jsizeL]; have := jsize_pos el; omega
          · simp [jsizeL]; have := jsize_pos el; omega

theorem pruneF_fix_or_shrink : ∀ f : Nat,
    (∀ i j, pruneF f i j = j ∨ jsize (pruneF f i j) < jsize j) ∧
    (∀ i l, pruneFldsF f i l = l ∨ jsizeF (pruneFldsF f i l) < jsizeF l) ∧
    (∀ i l, pruneListF f i l = l ∨ jsizeL (pruneListF f i l) < jsizeL l) ∧
    (∀ i s l, pruneSeqF f i s l = l ∨ jsizeL (pruneSeqF f i s l) < jsizeL l) := by
  intro f
  induction f with
  | zero =>
    exact ⟨fun i j => Or.inl (by simp [pruneF]), fun i l => Or.inl (by simp [pruneFldsF]),
      fun i l => Or.inl (by simp [pruneListF]), fun i s l => Or.inl (by simp [pruneSeqF])⟩
  | succ f ih =>
    obtain ⟨ihJ, ihF, ihL, ihS⟩ := ih
    have wJ := (pruneF_size_le f).1
    have wF := (pruneF_size_le f).2.1
    have wL := (pruneF_size_le f).2.2.1
    have wS := (pruneF_size_le f).2.2.2
    refine ⟨?_, ?_, ?_, ?_⟩
    · intro i j
      cases j with
      | obj l =>
        simp only [pruneF]
        split
        · split
          · rename_i v hv
            have hb := fget_size2 hv
            have hw := wJ i v
            right; simp [jsize]; omega
          · rcases ihF i l with heq | hlt
            · left; rw [heq]
            · right; simp [jsize]; omega
        · rcases ihF i l with heq | hlt
          · left; rw [heq]
          · right; simp [jsize]; omega
      | arr l =>
        simp only [pruneF]
        split
        · rcases ihS i 0 l with heq | hlt
          · left; rw [heq]
          · right; simp [jsize]; omega
        · split
          · split
            · rename_i v hv
              have hb := lget_size2 hv
              have hw := wJ i v
              right; simp [jsize]; omega
            · rcases ihL i l with heq | hlt
              · left; rw [heq]
              · right; simp [jsize]; omega
          · rcases ihL i l with heq | hlt
            · left; rw [heq]
            · right; simp [jsize]; omega
      | null => left; simp [pruneF]
      | bool b => left; simp [pruneF]
      | num n => left; simp [pruneF]
      | str s => left; simp [pruneF]
    · intro i l
      cases l with
      | nil => left; simp [pruneFldsF]
      | cons k v t =>
        have hwt := wF i t
        simp only [pruneFldsF]
        split
        · right
          have := jsize_pos v
          simp only [jsizeF]
          omega
        · split
          · split
            · rename_i vl
              split
              · rename_i v1 hv1
                have hb := fget_size2 hv1
                have hw := wJ i v1
                right; simp [jsizeF, jsize]; omega
              · split
                · rename_i v2 hv2
                  have hb := fget_size2 hv2
                  have hw := wJ i v2
                  right; simp [jsizeF, jsize]; omega
                · rcases ihJ i (J.obj vl) with heq | hlt
                  · rcases ihF i t with heqt | hltt
                    · left; rw [heq, heqt]
                    · right; rw [heq]; simp [jsizeF]; omega
                  · right
                    have hw := wJ i (J.obj vl)
                    simp [jsizeF]; omega
            · rcases ihJ i v with heq | hlt
              · rcases ihF i t with heqt | hltt
                · left; rw [heq, heqt]
                · right; rw [heq]; simp [jsizeF]; omega
              · right
                have hw := wJ i v
                simp [jsizeF]; omega
          · rcases ihJ i v with heq | hlt
            · rcases ihF i t with heqt | hltt
              · left; rw [heq, heqt]
              · right; rw [heq]; simp [jsizeF]; omega
            · right
              have hw := wJ i v
              simp [jsizeF]; omega
    · intro i l
      cases l with
      | nil => left; simp [pruneListF]
      | cons h0 t =>
        have hw := wJ i h0
        have hwt := wL i t
        simp only [pruneListF]
        rcases ihJ i h0 with heq | hlt
        · rcases ihL i t with heqt | hltt
          · left; rw [heq, heqt]
          · right; rw [heq]; simp [jsizeL]; omega
        · right; simp [jsizeL]; omega
    · intro i s l
      cases l with
      | nil => left; simp [pruneSeqF]
      | cons el t =>
        have hw := wJ i el
        have hwt := wS i s t
        have hwt1 := wS i (s + 1) t
        simp only [pruneSeqF]
        split
        · rcases ihJ i el with heq | hlt
          · rcases ihS i s t with heqt | hltt
            · left; rw [heq, heqt]
            · right; rw [heq]; simp [jsizeL]; omega
          · right; simp [jsizeL]; omega
        · split
          · split
            · rcases ihJ i el with heq | hlt
              · rcases ihS i (s + 1) t with heqt | hltt
                · left; rw [heq, heqt]
                · right; rw [heq]; simp [jsizeL]; omega
              · right; simp [jsizeL]; omega
            · right
              simp [jsizeL]; have := jsize_pos el; omega
          · right
            simp [jsizeL]; have := jsize_pos el; omega

/-- C3 counterexample: on a sequences-style list of two protein entries with
selected index 1, the first application keeps the second protein entry, and
the second application, seeing only one protein entry (now the zeroth), drops
it: prune(prune(d,1),1) differs from prune(d,1). -/
theorem C3_counterexample :
    ¬ (prune_chain_dimension 1 (prune_chain_dimension 1
        (J.arr (.cons (J.obj (.cons "protein" J.null .nil))
          (.cons (J.obj (.cons "protein" J.null .nil)) .nil))))
      = prune_chain_dimension 1
        (J.arr (.cons (J.obj (.cons "protein" J.null .nil))
          (.cons (J.obj (.cons "protein" J.null .nil)) .nil)))) := by
  decide

/-- C3 amended: a single application of prune_chain_dimension is not a
fixed point in general; instead every application either leaves the document
unchanged or strictly decreases its size, so iterating the engine with a
fixed selected index terminates in a fixed point after finitely many
applications. -/
theorem C3_amended_prune_fix_or_shrink (i : Nat) (d : J) :
    prune_chain_dimension i d = d ∨
      jsize (prune_chain_dimension i d) < jsize d :=
  (pruneF_fix_or_shrink (jsize d)).1 i d

/- ── choose_chain_index_by_sequence (msa_batch_extract_chain1.py 118-152) ──
The percentage score int(100*m/max(1,n)) is modelled with integer division;
Python computes it by float division and truncation, which agrees on the
magnitudes involved here. -/

def AA_CHARS : List Char := "ACDEFGHIKLMNPQRSTVWY".data

def is_aa_seq (s : String) : Bool :=
  s.data.all (fun c => AA_CHARS.contains c) && decide (30 ≤ s.data.length)

def SEQ_KEYS : List String := ["sequence", "seq", "query_sequence", "target_sequence"]

def seqFromKeys (l : JFields) : List String → Option String
  | [] => none
  | k :: ks =>
    match fget l k with
    | some (.str s) => if is_aa_seq s then some s else seqFromKeys l ks
    | _ => seqFromKeys l ks

def seq_from_elem (e : J) : Option String :=
  match e with
  | .obj l => seqFromKeys l SEQ_KEYS
  | _ => none

def DONOR_LIST_KEYS : List String :=
  ["chains", "sequences", "entities", "monomers", "inputs", "targets"]

def primaryCandidates (donor : J) : List JList :=
  match donor with
  | .obj l =>
    DONOR_LIST_KEYS.filterMap (fun k =>
      match fget l k with
      | some (.arr v) => if is_chain_like_list v then some v else none
      | _ => none)
  | _ => []

mutual

def scanJ : J → List JList
  | .obj l => scanFlds l
  | .arr l => if is_chain_like_list l then [l] else scanList l
  | _ => []

def scanFlds : JFields → List JList
  | .nil => []
  | .cons _ v t => scanJ v ++ scanFlds t

def scanList : JList → List JList
  | .nil => []
  | .cons h t => scanJ h ++ scanList t

end

def countEq : List Char → List Char → Nat
  | a :: as, b :: bs => (if a = b then 1 else 0) + countEq as bs
  | _, _ => 0

def scoreSeq (destSeq : String) (e : J) : Nat :=
  match seq_from_elem e with
  | none => 0
  | some s =>
    if listContainsSub s.data destSeq.data || listContainsSub destSeq.data s.data then 3
    else
      let n := min s.data.length destSeq.data.length
      if n ≠ 0 then (100 * countEq s.data destSeq.data) / max 1 n else 0

def stepIdx (destSeq : String) (acc : Nat × Int) (lst : JList) : Nat × Int :=
  let idxs : List Nat := if jlen lst = 0 then [] else if jlen lst = 1 then [0] else [0, 1]
  idxs.foldl (fun acc2 idx =>
    let sc : Int :=
      match lget lst idx with
      | some e => (scoreSeq destSeq e : Int)
      | none => 0
    if sc > acc2.2 then (idx, sc) else acc2) acc

def choose_chain_index_by_sequence (donor : J) (destSeq : Option String) : Nat :=
  match destSeq with
  | none => 0
  | some ds =>
    if ds.data.isEmpty then 0
    else
      let cands := primaryCandidates donor
      let cands := if cands.isEmpty then scanJ donor else cands
      (cands.foldl (stepIdx ds) (0, -1)).1

def c10dest : String := "AAAAAAAAAACCCCCCCCCCDDDDDDDDDD"

def c10other : String := "AAWWWWWWWWWWWWWWWWWWWWWWWWWWWW"

def c10chains : JList :=
  .cons (J.obj (.cons "sequence" (J.str c10other) .nil))
    (.cons (J.obj (.cons "sequence" (J.str c10dest) .nil)) .nil)

def c10donor : J := J.obj (.cons "sequences" (J.arr c10chains) .nil)

/-- C10: a donor chain whose sequence is in a substring relation with the
destination sequence (fixed score 3) is outranked by another chain whose
positional identity over the common prefix reaches at least 4 percent, so
the selector returns the non-substring chain index. -/
theorem C10_substring_outranked :
    choose_chain_index_by_sequence c10donor (some c10dest) = 0 ∧
    (lget c10chains 1).bind seq_from_elem = some c10dest ∧
    (listContainsSub c10dest.data c10dest.data
      || listContainsSub c10dest.data c10dest.data) = true ∧
    scoreSeq c10dest (J.obj (.cons "sequence" (J.str c10dest) .nil)) = 3 ∧
    scoreSeq c10dest (J.obj (.cons "sequence" (J.str c10other) .nil)) = 6 := by
  decide

/- ── find_first_sequence (msa_batch_extract_chain1.py lines 43-54): depth
first visit keeping the longest amino-acid string (first one wins ties). ── -/

mutual

def ffsJ (acc : Option String) : J → Option String
  | .obj l => ffsFlds acc l
  | .arr l => ffsList acc l
  | .str x =>
    if is_aa_seq x then
      match acc with
      | none => some x
      | some b => if b.data.length < x.data.length then some x else acc
    else acc
  | _ => acc

def ffsFlds (acc : Option String) : JFields → Option String
  | .nil => acc
  | .cons _ v t => ffsFlds (ffsJ acc v) t

def ffsList (acc : Option String) : JList → Option String
  | .nil => acc
  | .cons h t => ffsList (ffsJ acc h) t

end

def find_first_sequence (j : J) : Option String := ffsJ none j

/- ── find_ligand_value (msa_batch_extract_chain1.py lines 56-72): prefer a
ligand entry under sequences, else breadth-first search of the whole tree.
The queue fuel is the total size of the queued nodes, which strictly
decreases at every step. ── -/

def firstLigandEntry : JList → Option J
  | .nil => none
  | .cons e t =>
    match e with
    | .obj fl =>
      match fget fl "ligand" with
      | some v => some v
      | none => firstLigandEntry t
    | _ => firstLigandEntry t

def seqLigandScan (o : J) : Option J :=
  match o with
  | .obj l =>
    match fget l "sequences" with
    | some (.arr el) => firstLigandEntry el
    | _ => none
  | _ => none

def fieldsVals : JFields → List J
  | .nil => []
  | .cons _ v t => v :: fieldsVals t

def listVals : JList → List J
  | .nil => []
  | .cons h t => h :: listVals t

def bfsLig (fuel : Nat) (q : List J) : Option J :=
  match fuel, q with
  | 0, _ => none
  | _ + 1, [] => none
  | f + 1, cur :: rest =>
    match cur with
    | .obj l =>
      match fget l "ligand" with
      | some v => some v
      | none =>
        match fget l "ligands" with
        | some v => some v
        | none => bfsLig f (rest ++ fieldsVals l)
    | .arr l => bfsLig f (rest ++ listVals l)
    | _ => bfsLig f rest
termination_by structural fuel

def find_ligand_value (o : J) : Option J :=
  match seqLigandScan o with
  | some v => some v
  | none => bfsLig (jsize o) [o]

/- ── override_ligand (msa_batch_extract_chain1.py lines 198-210) ── -/

mutual

def ovJ (lv : J) : J → J
  | .obj l => .obj (ovFlds lv l)
  | .arr l => .arr (ovList lv l)
  | x => x

def ovFlds (lv : J) : JFields → JFields
  | .nil => .nil
  | .cons k v t =>
    if k = "ligand" then .cons k lv (ovFlds lv t)
    else if k = "ligands" then
      .cons k (match lv with | .arr a => .arr a | x => .arr (.cons x .nil)) (ovFlds lv t)
    else .cons k (ovJ lv v) (ovFlds lv t)

def ovList (lv : J) : JList → JList
  | .nil => .nil
  | .cons h t => .cons (ovJ lv h) (ovList lv t)

end

def override_ligand (out : J) : Option J → J
  | none => out
  | some lv => ovJ lv out

/- ── output_is_complete (msa_batch_extract_chain1.py lines 212-250) ──
Python equality between json values is modelled by structural equality of
the tree; the values compared by the validator in this development are
scalars or identical subtrees, on which the two notions agree. A non-dict
second argument would make Python raise inside dest_json.get; the claims
apply the validator to dict destinations only. -/

mutual

def has_paired : J → Bool
  | .obj l => hasPairedFlds l
  | .arr l => hasPairedList l
  | _ => false

def hasPairedFlds : JFields → Bool
  | .nil => false
  | .cons k v t => isPairedKey k || has_paired v || hasPairedFlds t

def hasPairedList : JList → Bool
  | .nil => false
  | .cons h t => has_paired h || hasPairedList t

end

def pyTruthy : J → Bool
  | .null => false
  | .bool b => b
  | .num n => !(n == 0)
  | .str s => !s.data.isEmpty
  | .arr l => !(l == JList.nil)
  | .obj l => !(l == JFields.nil)

def jGetOpt (o : J) (k : String) : Option J :=
  match o with
  | .obj l => fget l k
  | _ => none

def optEqPy : Option J → Option J → Bool
  | none, none => true
  | some x, some y => x == y
  | _, _ => false

def filterKeyEntries : JList → String → JList
  | .nil, _ => .nil
  | .cons e t, k =>
    if elemHas e k then .cons e (filterKeyEntries t k) else filterKeyEntries t k

def ligOr (a : Option J) (o : J) : Option J :=
  match a with
  | some v => if pyTruthy v then some v else find_ligand_value o
  | none => find_ligand_value o

def output_is_complete (out dest : J) : Bool :=
  match out with
  | .obj ol =>
    if !optEqPy (fget ol "name") (jGetOpt dest "name") then false
    else
      match fget ol "sequences" with
      | some (.arr seqs) =>
        let prot := filterKeyEntries seqs "protein"
        let lig := filterKeyEntries seqs "ligand"
        if !(jlen prot == 1) then false
        else if jlen lig < 1 then false
        else
          match lget prot 0 with
          | some (.obj pe) =>
            match fget pe "protein" with
            | some (.obj protein) =>
              if !fhas protein "unpairedMsa" then false
              else if fhas protein "pairedMsa" then false
              else if has_paired out then false
              else
                match ligOr (seqLigandScan dest) dest, ligOr (seqLigandScan out) out with
                | some a, some b => if !(a == b) then false else true
                | _, _ => true
            | _ => false
          | _ => false
      | _ => false
  | _ => false

/- ── make_single_chain_with_msa, pure document synthesis part
(msa_batch_extract_chain1.py lines 266-295). Failures raised by Python
(subscript or attribute errors on unexpectedly shaped outputs) are modelled
by the error monad; they are caught at the per-job boundary in main. ── -/

inductive PyErr where
  | typeErr
  | keyErr
  | valueErr
  | attrErr
deriving DecidableEq

def jSetTop (o : J) (k : String) (v : J) : Except PyErr J :=
  match o with
  | .obj l => .ok (.obj (fset l k v))
  | _ => .error .typeErr

def fdel : JFields → String → JFields
  | .nil, _ => .nil
  | .cons k v t, s => if k = s then t else .cons k v (fdel t s)

def jPopM (o : J) (k : String) : Except PyErr J :=
  match o with
  | .obj l => .ok (.obj (fdel l k))
  | _ => .error .typeErr

def dropMods (e : J) : J :=
  match e with
  | .obj el =>
    match fget el "protein" with
    | some (.obj pl) => .obj (fset el "protein" (.obj (fdel pl "modifications")))
    | _ => e
  | _ => e

def dropModsList : JList → JList
  | .nil => .nil
  | .cons e t => .cons (dropMods e) (dropModsList t)

def make_single_chain_doc (dest donor : J) : Except PyErr J := do
  let destSeq := find_first_sequence dest
  let keepIdx := choose_chain_index_by_sequence donor destSeq
  let pruned := prune_chain_dimension keepIdx (strip_paired_blocks donor)
  let ligv := find_ligand_value dest
  let out0 := override_ligand pruned ligv
  let out1 ←
    match dest with
    | .obj dl =>
      match fget dl "name" with
      | some nv => jSetTop out0 "name" nv
      | none => .ok out0
    | _ => .ok out0
  let out2 ← jPopM out1 "bondedAtomPairs"
  let out3 ← jPopM out2 "userCCD"
  match out3 with
  | .obj ol =>
    match fget ol "sequences" with
    | some (.arr el) => .ok (J.obj (fset ol "sequences" (.arr (dropModsList el))))
    | _ => .ok out3
  | _ => .error .attrErr

/- ── File-state model for one job output path: the canonical file
output_msa/alphafold_input_with_msa.json and its sibling .tmp file.
Documents are modelled parsed; an absent file is modelled as none. ── -/

structure FSState where
  canonical : Option J
  tmp : Option J
deriving DecidableEq

/-- Model of writing the temporary file (safe_write_json before os.replace). -/
def writeTmp (fs : FSState) (doc : J) : FSState := { fs with tmp := some doc }

/-- Model of os.replace(tmp, path): atomic promotion of the temporary. -/
def replaceTmpToCanonical (fs : FSState) : FSState :=
  match fs.tmp with
  | some d => { canonical := some d, tmp := none }
  | none => fs

/-- safe_write_json (msa_batch_extract_chain1.py lines 30-38): write the
temporary file, then promote it; no completeness check happens here. -/
def safe_write_json (fs : FSState) (doc : J) : FSState :=
  replaceTmpToCanonical (writeTmp fs doc)

/-- finalize_or_fix_partial (msa_batch_extract_chain1.py lines 297-319):
promote a leftover temporary only if it validates, else delete it; then
report whether a valid canonical file exists. -/
def finalize_or_fix_partial (fs : FSState) (dest : J) : FSState × Bool :=
  match fs.tmp with
  | some t =>
    if output_is_complete t dest then ({ canonical := some t, tmp := none }, true)
    else
      ({ canonical := fs.canonical, tmp := none },
        match fs.canonical with
        | some c => output_is_complete c dest
        | none => false)
  | none =>
    (fs,
      match fs.canonical with
      | some c => output_is_complete c dest
      | none => false)

inductive JobSummary where
  | okDone
  | errValidation
  | errOther
deriving DecidableEq

/-- Model of the per-job generation step of main (msa_batch_extract_chain1.py
lines 384-398): synthesize, write through safe_write_json, then validate the
written file and report; a failing validation is only reported, the written
canonical file stays in place. -/
def processJobGen (fs : FSState) (dest donor : J) : FSState × JobSummary :=
  match make_single_chain_doc dest donor with
  | .error _ => (fs, .errOther)
  | .ok out =>
    let fs1 := safe_write_json fs out
    if output_is_complete out dest then (fs1, .okDone) else (fs1, .errValidation)

def c2aa : String := "AAAAAAAAAACCCCCCCCCCDDDDDDDDDD"

def c2dest : J :=
  J.obj (.cons "name" (J.str "job1")
    (.cons "sequences" (J.arr
      (.cons (J.obj (.cons "protein"
        (J.obj (.cons "id" (J.str "A") (.cons "sequence" (J.str c2aa) .nil))) .nil))
      (.cons (J.obj (.cons "ligand" (J.str "LIG") .nil)) .nil))) .nil))

def c2donor : J :=
  J.obj (.cons "name" (J.str "donorjob")
    (.cons "sequences" (J.arr
      (.cons (J.obj (.cons "protein"
        (J.obj (.cons "id" (J.str "A") (.cons "sequence" (J.str c2aa) .nil))) .nil))
      (.cons (J.obj (.cons "protein"
        (J.obj (.cons "id" (J.str "B") (.cons "sequence" (J.str c2aa) .nil))) .nil))
        .nil))) .nil))

/-- C2 counterexample: the generation path promotes the produced document to
the canonical path before the completeness check runs; with a donor carrying
no unpairedMsa and a pruned output with no ligand entry, the run ends with a
validation-failing document at the canonical path and an error summary. -/
theorem C2_counterexample :
    (match (processJobGen ⟨none, none⟩ c2dest c2donor).1.canonical with
      | some m => output_is_complete m c2dest
      | none => true) = false ∧
    (processJobGen ⟨none, none⟩ c2dest c2donor).2 = JobSummary.errValidation := by
  decide

/-- C2 amended: writes go through a temporary that os.replace promotes
atomically, but promotion happens before the completeness check: a produced
document always reaches the canonical path and a failed validation is only
reported. On resume, finalize_or_fix_partial promotes a leftover temporary
exactly when it satisfies output_is_complete, and discards it otherwise. -/
theorem C2_amended_write_discipline :
    (∀ (c0 : Option J) (t dest : J),
      ( finalize_or_fix_partial ⟨c0, some t⟩ dest).1.canonical
        = (if output_is_complete t dest then some t else c0) ∧
      ( finalize_or_fix_partial ⟨c0, some t⟩ dest).1.tmp = none) ∧
    (∀ (fs : FSState) (dest donor out : J),
      make_single_chain_doc dest donor = Except.ok out →
      (processJobGen fs dest donor).1.canonical = some out ∧
      (processJobGen fs dest donor).1.tmp = none ∧
      (processJobGen fs dest donor).2
        = (if output_is_complete out dest then JobSummary.okDone
           else JobSummary.errValidation)) := by
  constructor
  · intro c0 t dest
    simp only [ finalize_or_fix_partial]
    split <;> simp_all
  · intro fs dest donor out h
    simp only [processJobGen, h, safe_write_json, replaceTmpToCanonical, writeTmp]
    split <;> simp_all

def c2out : J :=
  match make_single_chain_doc c2dest c2donor with
  | .ok o => o
  | .error _ => J.null

theorem C2_amended_write_discipline_witness :
    (( finalize_or_fix_partial ⟨none, some c2out⟩ c2dest).1.canonical
        = (if output_is_complete c2out c2dest then some c2out else none) ∧
      ( finalize_or_fix_partial ⟨none, some c2out⟩ c2dest).1.tmp = none) ∧
    ((processJobGen ⟨none, none⟩ c2dest c2donor).1.canonical = some c2out ∧
      (processJobGen ⟨none, none⟩ c2dest c2donor).1.tmp = none ∧
      (processJobGen ⟨none, none⟩ c2dest c2donor).2
        = (if output_is_complete c2out c2dest then JobSummary.okDone
           else JobSummary.errValidation)) :=
  ⟨C2_amended_write_discipline.1 none c2out c2dest,
    C2_amended_write_discipline.2 ⟨none, none⟩ c2dest c2donor c2out (by rfl)⟩

/- ── merge_json document part (batch_reuse_msa.py lines 41-61) ──
chain_map builds the id-to-protein-fields mapping with Python dict insertion
semantics (a duplicate id overwrites the value in place). Unhashable id
values (lists, dicts) raise TypeError in Python and are modelled as errors.
A sequences value that is not a list is modelled as an error (Python would
either raise while subscripting its elements or, for element-free iterables,
produce an empty map; no claim exercises that corner). -/

def CORE_KEYS : List String := ["id", "sequence", "modifications"]

/-- Python `key in value` for a string key: dict key membership, substring
test on strings, element equality on lists, TypeError otherwise. -/
def pyIn (s : String) (e : J) : Except PyErr Bool :=
  match e with
  | .obj l => .ok (fhas l s)
  | .str t => .ok (listContainsSub t.data s.data)
  | .arr l => .ok (jlistContains l (.str s))
  | _ => .error .typeErr

/-- Python subscript value[k] for a string key. -/
def jSub (e : J) (k : String) : Except PyErr J :=
  match e with
  | .obj l =>
    match fget l k with
    | some v => .ok v
    | none => .error .keyErr
  | _ => .error .typeErr

def hashableJ : J → Bool
  | .arr _ => false
  | .obj _ => false
  | _ => true

def lookupJ : List (J × JFields) → J → Option JFields
  | [], _ => none
  | (k, v) :: t, x => if k = x then some v else lookupJ t x

def mapInsert : List (J × JFields) → J → JFields → List (J × JFields)
  | [], k, v => [(k, v)]
  | (k0, v0) :: t, k, v =>
    if k0 = k then (k0, v) :: t else (k0, v0) :: mapInsert t k v

def chainMapAux (acc : List (J × JFields)) : JList → Except PyErr (List (J × JFields))
  | .nil => .ok acc
  | .cons e t =>
    match pyIn "protein" e with
    | .error er => .error er
    | .ok false => chainMapAux acc t
    | .ok true =>
      match jSub e "protein" with
      | .error er => .error er
      | .ok p =>
        match p with
        | .obj pl =>
          match jSub p "id" with
          | .error er => .error er
          | .ok idv =>
            if hashableJ idv then chainMapAux (mapInsert acc idv pl) t
            else .error .typeErr
        | _ => .error .typeErr

def chain_map (l : JList) : Except PyErr (List (J × JFields)) := chainMapAux [] l

def missChains (dc sc : List (J × JFields)) : List J :=
  dc.filterMap (fun p => if (lookupJ sc p.1).isSome then none else some p.1)

/-- Field copy loop of merge_json: every donor field except the core keys is
assigned into the destination protein entry, later assignments overriding
earlier ones. -/
def copyFields (pd : JFields) : JFields → JFields
  | .nil => pd
  | .cons k v t => copyFields (if CORE_KEYS.contains k then pd else fset pd k v) t

def mergeEntryM (sc : List (J × JFields)) (ent : J) : Except PyErr J :=
  match pyIn "protein" ent with
  | .error er => .error er
  | .ok false => .ok ent
  | .ok true =>
    match jSub ent "protein" with
    | .error er => .error er
    | .ok p =>
      match p with
      | .obj pl =>
        match jSub p "id" with
        | .error er => .error er
        | .ok cid =>
          match lookupJ sc cid with
          | some donorFields =>
            match ent with
            | .obj el => .ok (.obj (fset el "protein" (.obj (copyFields pl donorFields))))
            | _ => .error .typeErr
          | none => .error .keyErr
      | _ => .error .typeErr

def mapEntriesM (sc : List (J × JFields)) : JList → Except PyErr JList
  | .nil => .ok .nil
  | .cons e t =>
    match mergeEntryM sc e with
    | .error er => .error er
    | .ok e2 =>
      match mapEntriesM sc t with
      | .error er => .error er
      | .ok t2 => .ok (.cons e2 t2)

def jGetDefault (o : J) (k : String) (dflt : J) : J :=
  match o with
  | .obj l => (fget l k).getD dflt
  | _ => dflt

/-- Document part of merge_json: builds both chain maps, refuses on missing
chains, copies donor alignment fields, and sets version to the maximum. -/
def mergeTree (s d : J) : Except PyErr J :=
  match jSub s "sequences" with
  | .error er => .error er
  | .ok sseq =>
    match jSub d "sequences" with
    | .error er => .error er
    | .ok dseq =>
      match sseq, dseq with
      | .arr sl, .arr dl =>
        match chain_map sl with
        | .error er => .error er
        | .ok sc =>
          match chain_map dl with
          | .error er => .error er
          | .ok dc =>
            if !(missChains dc sc).isEmpty then .error .valueErr
            else
              match mapEntriesM sc dl with
              | .error er => .error er
              | .ok dl2 =>
                match jSetTop d "sequences" (.arr dl2) with
                | .error er => .error er
                | .ok d1 =>
                  match jGetDefault d1 "version" (J.num 1) with
                  | .num a =>
                    match jGetDefault s "version" (J.num 1) with
                    | .num b => jSetTop d1 "version" (.num (max a b))
                    | _ => .error .typeErr
                  | _ => .error .typeErr
      | _, _ => .error .typeErr

/- ── Lemmas about field assignment and the merge copy loop ── -/

def fkeys : JFields → List String
  | .nil => []
  | .cons k _ t => k :: fkeys t

theorem fget_fset_self (l : JFields) (k : String) (v : J) :
    fget (fset l k v) k = some v := by
  induction l using JFieldsInd with
  | nil => simp [fset, fget]
  | cons k0 v0 t ih =>
    simp only [fset]
    split
    · rename_i he; simp [fget, he]
    · rename_i he; simp [fget, he, ih]

theorem fget_fset_ne (l : JFields) (k k2 : String) (v : J) (h : ¬ k = k2) :
    fget (fset l k v) k2 = fget l k2 := by
  induction l using JFieldsInd with
  | nil => simp [fset, fget, h]
  | cons k0 v0 t ih =>
    simp only [fset]
    split
    · rename_i he; subst he; simp [fget, h]
    · simp [fget, ih]

theorem fhas_iff_mem_fkeys (l : JFields) (k : String) :
    fhas l k = true ↔ k ∈ fkeys l := by
  induction l using JFieldsInd with
  | nil => simp [fhas, fget, fkeys]
  | cons k0 v0 t ih =>
    simp only [fhas, fget, fkeys] at *
    split
    · rename_i he; subst he; simp
    · rename_i he
      simp only [List.mem_cons, ih]
      constructor
      · exact fun hh => Or.inr hh
      · rintro (hh | hh)
        · exact absurd hh.symm he
        · exact hh

theorem copyFields_not_in (ds : JFields) (pd : JFields) (k : String)
    (h : fhas ds k = false) :
    fget (copyFields pd ds) k = fget pd k := by
  induction ds using JFieldsInd generalizing pd with
  | nil => simp [copyFields]
  | cons k0 v0 t ih =>
    have he : ¬ k0 = k := by
      intro hc; subst hc
      simp [fhas, fget] at h
    have ht : fhas t k = false := by
      simpa [fhas, fget, he] using h
    simp only [copyFields]
    split
    · exact ih pd ht
    · rw [ih (fset pd k0 v0) ht]
      exact fget_fset_ne pd k0 k v0 he

theorem copyFields_core (ds : JFields) (pd : JFields) (k : String)
    (hk : CORE_KEYS.contains k = true) :
    fget (copyFields pd ds) k = fget pd k := by
  induction ds using JFieldsInd generalizing pd with
  | nil => simp [copyFields]
  | cons k0 v0 t ih =>
    simp only [copyFields]
    split
    · exact ih pd
    · rename_i hc
      rw [ih (fset pd k0 v0)]
      refine fget_fset_ne pd k0 k v0 ?_
      intro he; subst he
      exact hc (by simpa using hk)

theorem copyFields_donor (ds : JFields) (pd : JFields) (k : String)
    (hnd : (fkeys ds).Nodup)
    (hin : fhas ds k = true) (hcore : CORE_KEYS.contains k = false) :
    fget (copyFields pd ds) k = fget ds k := by
  induction ds using JFieldsInd generalizing pd with
  | nil => simp [fhas, fget] at hin
  | cons k0 v0 t ih =>
    rw [fkeys, List.nodup_cons] at hnd
    by_cases he : k0 = k
    · subst he
      have hnotin : fhas t k0 = false := by
        rcases hb : fhas t k0 with _ | _
        · rfl
        · exact absurd ((fhas_iff_mem_fkeys t k0).mp hb) hnd.1
      simp only [copyFields, hcore, Bool.false_eq_true, if_false]
      rw [copyFields_not_in t (fset pd k0 v0) k0 hnotin, fget_fset_self]
      simp [fget]
    · have hint : fhas t k = true := by
        simpa [fhas, fget, he] using hin
      simp only [copyFields]
      have hres : fget t k = fget (JFields.cons k0 v0 t) k := by simp [fget, he]
      rw [← hres]
      split
      · exact ih pd hnd.2 hint
      · exact ih (fset pd k0 v0) hnd.2 hint

/- ── Accessors used to state the merge frame property ── -/

def seqEntriesOf (j : J) : Option JList :=
  match j with
  | .obj l =>
    match fget l "sequences" with
    | some (.arr el) => some el
    | _ => none
  | _ => none

def protOf (e : J) : Option JFields :=
  match e with
  | .obj el =>
    match fget el "protein" with
    | some (.obj p) => some p
    | _ => none
  | _ => none

def entryAt (j : J) (n : Nat) : Option J := (seqEntriesOf j).bind (fun l => lget l n)

def protFieldAt (j : J) (n : Nat) (k : String) : Option J :=
  ((entryAt j n).bind protOf).bind (fun p => fget p k)

def scOfM (s : J) : Except PyErr (List (J × JFields)) :=
  match jSub s "sequences" with
  | .ok (.arr sl) => chain_map sl
  | .ok _ => .error .typeErr
  | .error e => .error e

theorem mapEntriesM_pointwise (sc : List (J × JFields)) :
    ∀ (dl dl2 : JList), mapEntriesM sc dl = .ok dl2 → ∀ n : Nat,
      (∀ ed, lget dl n = some ed →
        ∃ em, lget dl2 n = some em ∧ mergeEntryM sc ed = .ok em) ∧
      (lget dl n = none → lget dl2 n = none)
  | .nil, dl2, h, n => by
    simp only [mapEntriesM] at h
    cases h
    exact ⟨fun ed he => by simp [lget] at he, fun _ => by simp [lget]⟩
  | .cons e t, dl2, h, n => by
    simp only [mapEntriesM] at h
    split at h
    · cases h
    · rename_i e2 he2
      split at h
      · cases h
      · rename_i t2 ht2
        cases h
        cases n with
        | zero =>
          refine ⟨fun ed he => ?_, fun he => by simp [lget] at he⟩
          simp only [lget] at he
          cases he
          exact ⟨e2, by simp [lget], he2⟩
        | succ n =>
          have ih := mapEntriesM_pointwise sc t t2 ht2 n
          exact ⟨fun ed he => ih.1 ed he, fun he => ih.2 he⟩

theorem mergeEntryM_core (sc : List (J × JFields)) (ed em : J)
    (h : mergeEntryM sc ed = .ok em) (k : String)
    (hk : CORE_KEYS.contains k = true) :
    (protOf em).bind (fun p => fget p k) = (protOf ed).bind (fun p => fget p k) := by
  cases ed with
  | obj el =>
    simp only [mergeEntryM, pyIn] at h
    rcases hhas : fhas el "protein" with _ | _ <;> simp only [hhas] at h
    · cases h; rfl
    · simp only [jSub] at h
      rcases hf : fget el "protein" with _ | p <;> simp only [hf] at h
      · cases h
      · cases p with
        | obj pl =>
          rcases hi : fget pl "id" with _ | cid2 <;> simp only [hi] at h
          · cases h
          · rcases hL : lookupJ sc cid2 with _ | S2 <;> simp only [hL] at h
            · cases h
            · cases h
              simp only [protOf, fget_fset_self, hf, Option.bind]
              exact copyFields_core S2 pl k hk
        | null => simp at h
        | bool b => simp at h
        | num nn => simp at h
        | str ss => simp at h
        | arr a => simp at h
  | null => simp [mergeEntryM, pyIn] at h
  | bool b => simp [mergeEntryM, pyIn] at h
  | num nn => simp [mergeEntryM, pyIn] at h
  | str ss =>
    simp only [mergeEntryM, pyIn] at h
    rcases hc : listContainsSub ss.data "protein".data with _ | _ <;>
      simp only [hc] at h
    · cases h; rfl
    · simp [jSub] at h
  | arr a =>
    simp only [mergeEntryM, pyIn] at h
    rcases hc : jlistContains a (J.str "protein") with _ | _ <;>
      simp only [hc] at h
    · cases h; rfl
    · simp [jSub] at h

theorem mergeEntryM_copy (sc : List (J × JFields)) (ed em : J)
    (h : mergeEntryM sc ed = .ok em) (cid : J) (S : JFields) (k : String)
    (hid : (protOf ed).bind (fun p => fget p "id") = some cid)
    (hS : lookupJ sc cid = some S)
    (hnd : (fkeys S).Nodup) (hin : fhas S k = true)
    (hcore : CORE_KEYS.contains k = false) :
    (protOf em).bind (fun p => fget p k) = fget S k := by
  cases ed with
  | obj el =>
    simp only [mergeEntryM, pyIn] at h
    rcases hhas : fhas el "protein" with _ | _ <;> simp only [hhas] at h
    · exfalso
      simp only [protOf] at hid
      rcases hf : fget el "protein" with _ | p <;> simp only [hf] at hid
      · simp at hid
      · have : fhas el "protein" = true := by simp [fhas, hf]
        rw [this] at hhas; cases hhas
    · simp only [jSub] at h
      rcases hf : fget el "protein" with _ | p <;> simp only [hf] at h
      · cases h
      · cases p with
        | obj pl =>
          rcases hi : fget pl "id" with _ | cid2 <;> simp only [hi] at h
          · cases h
          · have hcc : cid2 = cid := by
              simp only [protOf, hf, Option.bind, hi] at hid
              cases hid; rfl
            subst hcc
            rw [hS] at h
            cases h
            simp only [protOf, fget_fset_self, Option.bind]
            exact copyFields_donor S pl k hnd hin hcore
        | null => simp at h
        | bool b => simp at h
        | num nn => simp at h
        | str ss => simp at h
        | arr a => simp at h
  | null => simp [mergeEntryM, pyIn] at h
  | bool b => simp [mergeEntryM, pyIn] at h
  | num nn => simp [mergeEntryM, pyIn] at h
  | str ss =>
    simp [protOf] at hid
  | arr a =>
    simp [protOf] at hid

theorem mergeTree_ok_struct {s d m : J} (h : mergeTree s d = .ok m) :
    ∃ sfl dfl sl dl sc dl2 a,
      s = .obj sfl ∧ d = .obj dfl ∧
      fget sfl "sequences" = some (.arr sl) ∧
      fget dfl "sequences" = some (.arr dl) ∧
      chain_map sl = .ok sc ∧
      mapEntriesM sc dl = .ok dl2 ∧
      m = .obj (fset (fset dfl "sequences" (.arr dl2)) "version" (.num a)) := by
  cases s with
  | obj sfl =>
    cases d with
    | obj dfl =>
      simp only [mergeTree, jSub] at h
      rcases hs : fget sfl "sequences" with _ | sseq <;> simp only [hs] at h
      · cases h
      · rcases hd : fget dfl "sequences" with _ | dseq <;> simp only [hd] at h
        · cases h
        · cases sseq <;> cases dseq <;> simp only [] at h <;> try cases h
          rename_i sl dl
          rcases hsc : chain_map sl with er | sc <;> simp only [hsc] at h
          · cases h
          · rcases hdc : chain_map dl with er | dc <;> simp only [hdc] at h
            · cases h
            · split at h
              · cases h
              · rcases hmap : mapEntriesM sc dl with er | dl2 <;> simp only [hmap] at h
                · cases h
                · simp only [jSetTop] at h
                  rcases hv1 : jGetDefault
                      (J.obj (fset dfl "sequences" (J.arr dl2))) "version" (J.num 1) with
                    _ | b1 | n1 | s1 | a1 | o1 <;> simp only [hv1] at h <;> try cases h
                  rcases hv2 : jGetDefault (J.obj sfl) "version" (J.num 1) with
                    _ | b2 | n2 | s2 | a2 | o2 <;> simp only [hv2] at h <;> try cases h
                  exact ⟨sfl, dfl, sl, dl, sc, dl2, max n1 n2, rfl, rfl, hs, hd, hsc,
                    hmap, rfl⟩
    | null =>
      simp only [mergeTree, jSub] at h
      split at h <;> cases h
    | bool b =>
      simp only [mergeTree, jSub] at h
      split at h <;> cases h
    | num nn =>
      simp only [mergeTree, jSub] at h
      split at h <;> cases h
    | str ss =>
      simp only [mergeTree, jSub] at h
      split at h <;> cases h
    | arr a =>
      simp only [mergeTree, jSub] at h
      split at h <;> cases h
  | null => simp [mergeTree, jSub] at h
  | bool b => simp [mergeTree, jSub] at h
  | num nn => simp [mergeTree, jSub] at h
  | str ss => simp [mergeTree, jSub] at h
  | arr a => simp [mergeTree, jSub] at h

/-- C7: for every donor and destination accepted by merge_json, each
destination protein entry keeps its core-identity fields (sequence, id,
modifications) unchanged in the merged output, and every non-core donor
field of the matching chain is copied over it. -/
theorem C7_merge_core_frame (s d m : J) (h : mergeTree s d = Except.ok m) (n : Nat) :
    (∀ k, CORE_KEYS.contains k = true → protFieldAt m n k = protFieldAt d n k) ∧
    (∀ cid S k,
      ((entryAt d n).bind protOf).bind (fun p => fget p "id") = some cid →
      (match scOfM s with
       | .ok sc => lookupJ sc cid
       | .error _ => none) = some S →
      (fkeys S).Nodup → fhas S k = true → CORE_KEYS.contains k = false →
      protFieldAt m n k = fget S k) := by
  obtain ⟨sfl, dfl, sl, dl, sc, dl2, a, hseq, hdeq, hs, hd, hsc, hmap, hm⟩ :=
    mergeTree_ok_struct h
  subst hseq hdeq hm
  have hvs : ¬ ("version" = "sequences") := by decide
  have hsm : seqEntriesOf
      (J.obj (fset (fset dfl "sequences" (J.arr dl2)) "version" (J.num a)))
      = some dl2 := by
    simp only [seqEntriesOf, fget_fset_ne _ _ _ _ hvs, fget_fset_self]
  have hsd : seqEntriesOf (J.obj dfl) = some dl := by
    simp only [seqEntriesOf, hd]
  have hpt := mapEntriesM_pointwise sc dl dl2 hmap n
  constructor
  · intro k hk
    simp only [protFieldAt, entryAt, hsm, hsd, Option.bind]
    rcases hdl : lget dl n with _ | ed
    · rw [hpt.2 hdl]
    · obtain ⟨em, hem, hok⟩ := hpt.1 ed hdl
      rw [hem]
      exact mergeEntryM_core sc ed em hok k hk
  · intro cid S k hid hlook hnd hin hcore
    have hsc2 : scOfM (J.obj sfl) = .ok sc := by
      simp only [scOfM, jSub, hs, hsc]
    rw [hsc2] at hlook
    simp only [protFieldAt, entryAt, hsm, hsd, Option.bind]
    simp only [entryAt, hsd, Option.bind] at hid
    rcases hdl : lget dl n with _ | ed
    · rw [hdl] at hid; simp at hid
    · rw [hdl] at hid
      obtain ⟨em, hem, hok⟩ := hpt.1 ed hdl
      rw [hem]
      exact mergeEntryM_copy sc ed em hok cid S k hid hlook hnd hin hcore

def c7S : JFields :=
  .cons "id" (J.str "A")
    (.cons "sequence" (J.str "OTHER")
      (.cons "unpairedMsa" (J.str "msadata")
        (.cons "templateIndices" (J.arr (.cons (J.num 1) .nil)) .nil)))

def c7donor : J :=
  J.obj (.cons "sequences" (J.arr (.cons (J.obj (.cons "protein" (J.obj c7S) .nil)) .nil)) .nil)

def c7dest : J :=
  J.obj (.cons "name" (J.str "j")
    (.cons "sequences" (J.arr
      (.cons (J.obj (.cons "protein"
        (J.obj (.cons "id" (J.str "A")
          (.cons "sequence" (J.str "S")
            (.cons "modifications" (J.arr .nil) .nil)))) .nil))
      (.cons (J.obj (.cons "ligand" (J.str "L") .nil)) .nil))) .nil))

def c7m : J :=
  match mergeTree c7donor c7dest with
  | .ok o => o
  | .error _ => J.null

theorem C7_merge_core_frame_witness :
    protFieldAt c7m 0 "sequence" = protFieldAt c7dest 0 "sequence" ∧
    protFieldAt c7m 0 "unpairedMsa" = fget c7S "unpairedMsa" := by
  have h := C7_merge_core_frame c7donor c7dest c7m (by rfl) 0
  refine ⟨h.1 "sequence" (by decide), ?_⟩
  exact h.2 (J.str "A") c7S "unpairedMsa" (by rfl) (by rfl) (by decide) (by decide)
    (by decide)

/-- C4 counterexample: donor and destination with identical chain set, but
the donor carries no unpairedMsa field for the chain; merge_json succeeds
and its output, checked against that destination, is rejected by
output_is_complete. -/
theorem C4_counterexample :
    (match mergeTree c2donor c2dest with
      | .ok mm => output_is_complete mm c2dest
      | .error _ => true) = false := by
  decide

/- ── Helper lemmas for the amended round-trip property ── -/

theorem fhas_fset (l : JFields) (k k2 : String) (v : J) :
    fhas (fset l k v) k2 = ((k = k2 : Bool) || fhas l k2) := by
  by_cases he : k = k2
  · subst he
    simp [fhas, fget_fset_self]
  · simp [fhas, fget_fset_ne l k k2 v he, he]

theorem copyFields_has (ds : JFields) (pd : JFields) (k : String)
    (hin : fhas ds k = true) (hcore : CORE_KEYS.contains k = false) :
    fhas (copyFields pd ds) k = true := by
  induction ds using JFieldsInd generalizing pd with
  | nil => simp [fhas, fget] at hin
  | cons k0 v0 t ih =>
    by_cases he : k0 = k
    · subst he
      simp only [copyFields, hcore, Bool.false_eq_true, if_false]
      rcases ht : fhas t k0 with _ | _
      · simp only [fhas]
        rw [copyFields_not_in t (fset pd k0 v0) k0 ht, fget_fset_self]
        rfl
      · exact ih (fset pd k0 v0) ht
    · have hint : fhas t k = true := by simpa [fhas, fget, he] using hin
      simp only [copyFields]
      split
      · exact ih pd hint
      · exact ih (fset pd k0 v0) hint

theorem fhas_cons (k0 : String) (v0 : J) (t : JFields) (k : String) :
    fhas (.cons k0 v0 t) k = ((k0 = k : Bool) || fhas t k) := by
  by_cases he : k0 = k <;> simp [fhas, fget, he]

theorem copyFields_keys (ds : JFields) (pd : JFields) (k : String)
    (h : fhas (copyFields pd ds) k = true) :
    fhas pd k = true ∨ fhas ds k = true := by
  induction ds using JFieldsInd generalizing pd with
  | nil => exact Or.inl (by simpa [copyFields] using h)
  | cons k0 v0 t ih =>
    simp only [copyFields] at h
    rw [fhas_cons]
    split at h
    · rcases ih pd h with hp | hT
      · exact Or.inl hp
      · exact Or.inr (by simp [hT])
    · rcases ih (fset pd k0 v0) h with hp | hT
      · rw [fhas_fset] at hp
        rcases hor : (k0 = k : Bool) with _ | _
        · rw [hor] at hp
          simp only [Bool.false_or] at hp
          exact Or.inl hp
        · exact Or.inr (by simp [hor])
      · exact Or.inr (by simp [hT])

theorem noPairedFlds_fset (l : JFields) (k : String) (v : J)
    (hl : noPairedFlds l = true) (hk : isPairedKey k = false)
    (hv : noPairedJ v = true) : noPairedFlds (fset l k v) = true := by
  induction l using JFieldsInd with
  | nil => simp [fset, noPairedFlds, hk, hv]
  | cons k0 v0 t ih =>
    simp only [noPairedFlds, Bool.and_eq_true] at hl
    simp only [fset]
    split
    · rename_i he; subst he
      simp [noPairedFlds, hl.1.1, hv, hl.2]
    · simp [noPairedFlds, hl.1.1, hl.1.2, ih hl.2]

theorem copyFields_noPaired (ds : JFields) (pd : JFields)
    (hpd : noPairedFlds pd = true) (hds : noPairedFlds ds = true) :
    noPairedFlds (copyFields pd ds) = true := by
  induction ds using JFieldsInd generalizing pd with
  | nil => simpa [copyFields] using hpd
  | cons k0 v0 t ih =>
    simp only [noPairedFlds, Bool.and_eq_true] at hds
    simp only [copyFields]
    split
    · exact ih pd hpd hds.2
    · refine ih (fset pd k0 v0) (noPairedFlds_fset pd k0 v0 hpd ?_ hds.1.2) hds.2
      simpa using hds.1.1

-- Bridge from the claim-side predicate to the has_paired scan of the source.

mutual

theorem noPaired_hasPairedJ : ∀ j : J, noPairedJ j = true → has_paired j = false
  | .obj l, h => by
    simp only [noPairedJ] at h
    simp only [has_paired]
    exact noPaired_hasPairedF l h
  | .arr l, h => by
    simp only [noPairedJ] at h
    simp only [has_paired]
    exact noPaired_hasPairedL l h
  | .null, _ => by simp [has_paired]
  | .bool b, _ => by simp [has_paired]
  | .num n, _ => by simp [has_paired]
  | .str s, _ => by simp [has_paired]

theorem noPaired_hasPairedF : ∀ l : JFields, noPairedFlds l = true → hasPairedFlds l = false
  | .nil, _ => by simp [hasPairedFlds]
  | .cons k v t, h => by
    simp only [noPairedFlds, Bool.and_eq_true] at h
    have hk : isPairedKey k = false := by simpa using h.1.1
    simp [hasPairedFlds, hk, noPaired_hasPairedJ v h.1.2, noPaired_hasPairedF t h.2]

theorem noPaired_hasPairedL : ∀ l : JList, noPairedList l = true → hasPairedList l = false
  | .nil, _ => by simp [hasPairedList]
  | .cons j t, h => by
    simp only [noPairedList, Bool.and_eq_true] at h
    simp [hasPairedList, noPaired_hasPairedJ j h.1, noPaired_hasPairedL t h.2]

end

theorem noPairedFlds_key (l : JFields) (k : String)
    (h : noPairedFlds l = true) (hk : fhas l k = true) : isPairedKey k = false := by
  induction l using JFieldsInd with
  | nil => simp [fhas, fget] at hk
  | cons k0 v0 t ih =>
    simp only [noPairedFlds, Bool.and_eq_true] at h
    by_cases he : k0 = k
    · subst he
      simpa using h.1.1
    · exact ih h.2 (by simpa [fhas, fget, he] using hk)

/- ── Generalized round-trip family for the amended C4: the destination
holds one protein entry followed by any nonempty list of ligand entries; the
donor holds an arbitrary chain list whose chain map merely contains the
matching chain, so donors with strictly more chains than the destination
(the proper-subset case) are covered. ── -/

def isLigandEntry (e : J) : Bool :=
  match e with
  | .obj el => fhas el "ligand" && !fhas el "protein" && noPairedFlds el
  | _ => false

def allLigandEntries : JList → Bool
  | .nil => true
  | .cons e t => isLigandEntry e && allLigandEntries t

theorem chainMapAux_skips : ∀ (ligs : JList), allLigandEntries ligs = true →
    ∀ acc, chainMapAux acc ligs = .ok acc := by
  intro ligs
  induction ligs using JListInd with
  | nil => intro _ acc; rfl
  | cons e t ih =>
    intro hall acc
    simp only [allLigandEntries, Bool.and_eq_true] at hall
    cases e with
    | obj el =>
      have hp : fhas el "protein" = false := by
        have h1 := hall.1
        simp only [isLigandEntry, Bool.and_eq_true] at h1
        simpa using h1.1.2
      simp only [chainMapAux, pyIn, hp]
      exact ih hall.2 acc
    | null => simp [isLigandEntry] at hall
    | bool b => simp [isLigandEntry] at hall
    | num n => simp [isLigandEntry] at hall
    | str s => simp [isLigandEntry] at hall
    | arr a => simp [isLigandEntry] at hall

theorem mapEntriesM_id_ligands : ∀ (ligs : JList), allLigandEntries ligs = true →
    ∀ sc, mapEntriesM sc ligs = .ok ligs := by
  intro ligs
  induction ligs using JListInd with
  | nil => intro _ sc; rfl
  | cons e t ih =>
    intro hall sc
    simp only [allLigandEntries, Bool.and_eq_true] at hall
    cases e with
    | obj el =>
      have hp : fhas el "protein" = false := by
        have h1 := hall.1
        simp only [isLigandEntry, Bool.and_eq_true] at h1
        simpa using h1.1.2
      simp only [mapEntriesM, mergeEntryM, pyIn, hp]
      rw [ih hall.2 sc]
    | null => simp [isLigandEntry] at hall
    | bool b => simp [isLigandEntry] at hall
    | num n => simp [isLigandEntry] at hall
    | str s => simp [isLigandEntry] at hall
    | arr a => simp [isLigandEntry] at hall

theorem filterKeyEntries_ligs_protein : ∀ (ligs : JList), allLigandEntries ligs = true →
    filterKeyEntries ligs "protein" = .nil := by
  intro ligs
  induction ligs using JListInd with
  | nil => intro _; rfl
  | cons e t ih =>
    intro hall
    simp only [allLigandEntries, Bool.and_eq_true] at hall
    cases e with
    | obj el =>
      have hp : fhas el "protein" = false := by
        have h1 := hall.1
        simp only [isLigandEntry, Bool.and_eq_true] at h1
        simpa using h1.1.2
      simp only [filterKeyEntries, elemHas, hp, Bool.false_eq_true, if_false]
      exact ih hall.2
    | null => simp [isLigandEntry] at hall
    | bool b => simp [isLigandEntry] at hall
    | num n => simp [isLigandEntry] at hall
    | str s => simp [isLigandEntry] at hall
    | arr a => simp [isLigandEntry] at hall

theorem filterKeyEntries_ligs_ligand : ∀ (ligs : JList), allLigandEntries ligs = true →
    filterKeyEntries ligs "ligand" = ligs := by
  intro ligs
  induction ligs using JListInd with
  | nil => intro _; rfl
  | cons e t ih =>
    intro hall
    simp only [allLigandEntries, Bool.and_eq_true] at hall
    cases e with
    | obj el =>
      have hl : fhas el "ligand" = true := by
        have h1 := hall.1
        simp only [isLigandEntry, Bool.and_eq_true] at h1
        exact h1.1.1
      simp only [filterKeyEntries, elemHas, hl, if_true]
      rw [ih hall.2]
    | null => simp [isLigandEntry] at hall
    | bool b => simp [isLigandEntry] at hall
    | num n => simp [isLigandEntry] at hall
    | str s => simp [isLigandEntry] at hall
    | arr a => simp [isLigandEntry] at hall

theorem noPairedList_ligands : ∀ (ligs : JList), allLigandEntries ligs = true →
    noPairedList ligs = true := by
  intro ligs
  induction ligs using JListInd with
  | nil => intro _; rfl
  | cons e t ih =>
    intro hall
    simp only [allLigandEntries, Bool.and_eq_true] at hall
    cases e with
    | obj el =>
      have hnp : noPairedFlds el = true := by
        have h1 := hall.1
        simp only [isLigandEntry, Bool.and_eq_true] at h1
        exact h1.2
      simp [noPairedList, noPairedJ, hnp, ih hall.2]
    | null => simp [isLigandEntry] at hall
    | bool b => simp [isLigandEntry] at hall
    | num n => simp [isLigandEntry] at hall
    | str s => simp [isLigandEntry] at hall
    | arr a => simp [isLigandEntry] at hall

theorem firstLigandEntry_head : ∀ (ligs : JList), ¬ ligs = JList.nil →
    allLigandEntries ligs = true → ∃ v, firstLigandEntry ligs = some v := by
  intro ligs hne hall
  cases ligs with
  | nil => exact absurd rfl hne
  | cons e t =>
    simp only [allLigandEntries, Bool.and_eq_true] at hall
    cases e with
    | obj el =>
      have hl : fhas el "ligand" = true := by
        have h1 := hall.1
        simp only [isLigandEntry, Bool.and_eq_true] at h1
        exact h1.1.1
      simp only [fhas] at hl
      rcases hv : fget el "ligand" with _ | v
      · rw [hv] at hl; simp at hl
      · exact ⟨v, by simp [firstLigandEntry, hv]⟩
    | null => simp [isLigandEntry] at hall
    | bool b => simp [isLigandEntry] at hall
    | num n => simp [isLigandEntry] at hall
    | str s => simp [isLigandEntry] at hall
    | arr a => simp [isLigandEntry] at hall

def c4donorDocG (donorEntries : JList) : J :=
  J.obj (.cons "sequences" (J.arr donorEntries) .nil)

def c4destDocG (nameV : J) (pd : JFields) (ligs : JList) : J :=
  J.obj (.cons "name" nameV
    (.cons "sequences"
      (J.arr (.cons (J.obj (.cons "protein" (J.obj pd) .nil)) ligs)) .nil))

def c4mergedDocG (nameV : J) (pd S : JFields) (ligs : JList) : J :=
  J.obj (.cons "name" nameV
    (.cons "sequences"
      (J.arr (.cons (J.obj (.cons "protein" (J.obj (copyFields pd S)) .nil)) ligs))
    (.cons "version" (J.num 1) .nil)))

theorem c4_merge_eval (nameV idv : J) (pd S : JFields) (ligs donorEntries : JList)
    (sc : List (J × JFields))
    (hpid : fget pd "id" = some idv) (hhash : hashableJ idv = true)
    (hsc : chain_map donorEntries = .ok sc) (hlook : lookupJ sc idv = some S)
    (hall : allLigandEntries ligs = true) :
    mergeTree (c4donorDocG donorEntries) (c4destDocG nameV pd ligs)
      = .ok (c4mergedDocG nameV pd S ligs) := by
  have hdc : chain_map (.cons (J.obj (.cons "protein" (J.obj pd) .nil)) ligs)
      = .ok [(idv, pd)] := by
    simp only [chain_map, chainMapAux, pyIn, fhas, fget, jSub, String.reduceEq, reduceIte,
      Option.isSome_some, hpid, hhash, mapInsert, if_true]
    exact chainMapAux_skips ligs hall [(idv, pd)]
  have hmap : mapEntriesM sc (.cons (J.obj (.cons "protein" (J.obj pd) .nil)) ligs)
      = .ok (.cons (J.obj (.cons "protein" (J.obj (copyFields pd S)) .nil)) ligs) := by
    simp only [mapEntriesM, mergeEntryM, pyIn, fhas, fget, jSub, String.reduceEq, reduceIte,
      Option.isSome_some, hpid, hlook, fset]
    rw [mapEntriesM_id_ligands ligs hall sc]
  simp only [mergeTree, c4donorDocG, c4destDocG, jSub, fget, jSetTop, jGetDefault,
    String.reduceEq, reduceIte]
  rw [hsc, hdc]
  simp [missChains, lookupJ, hlook, hmap, fset, c4mergedDocG, Option.isSome_some]

/-- C4 amended: the validator accepts the merge output provided additionally
that the destination holds exactly one protein entry and at least one ligand
entry, the donor chain map contains the matching chain with a bundle that
carries an unpairedMsa field, and the documents are free of paired-alignment
residues; the donor may hold any further chains (destination chain set a
proper subset of the donor chain set). Without those extra conditions the
round trip fails, as the counterexample shows. -/
theorem C4_amended_round_trip (nameV idv : J) (pd S : JFields)
    (ligs donorEntries : JList) (sc : List (J × JFields))
    (hname : noPairedJ nameV = true)
    (hpd : noPairedFlds pd = true)
    (hS : noPairedFlds S = true)
    (hpid : fget pd "id" = some idv)
    (hhash : hashableJ idv = true)
    (hsc : chain_map donorEntries = .ok sc)
    (hlook : lookupJ sc idv = some S)
    (hun : fhas S "unpairedMsa" = true)
    (hne : ¬ ligs = JList.nil)
    (hall : allLigandEntries ligs = true) :
    (match mergeTree (c4donorDocG donorEntries) (c4destDocG nameV pd ligs) with
      | .ok mm => output_is_complete mm (c4destDocG nameV pd ligs)
      | .error _ => false) = true := by
  rw [c4_merge_eval nameV idv pd S ligs donorEntries sc hpid hhash hsc hlook hall]
  have hP2has : fhas (copyFields pd S) "unpairedMsa" = true :=
    copyFields_has S pd "unpairedMsa" hun (by decide)
  have hP2nop : noPairedFlds (copyFields pd S) = true := copyFields_noPaired S pd hpd hS
  have hP2paired : fhas (copyFields pd S) "pairedMsa" = false := by
    rcases hb : fhas (copyFields pd S) "pairedMsa" with _ | _
    · rfl
    · exfalso
      rcases copyFields_keys S pd "pairedMsa" hb with hp | hd2
      · exact absurd (noPairedFlds_key pd "pairedMsa" hpd hp) (by decide)
      · exact absurd (noPairedFlds_key S "pairedMsa" hS hd2) (by decide)
  have hk1 : isPairedKey "name" = false := by decide
  have hk2 : isPairedKey "sequences" = false := by decide
  have hk3 : isPairedKey "protein" = false := by decide
  have hk4 : isPairedKey "ligand" = false := by decide
  have hk5 : isPairedKey "version" = false := by decide
  have hligsNP : noPairedList ligs = true := noPairedList_ligands ligs hall
  have hmnop : noPairedJ (c4mergedDocG nameV pd S ligs) = true := by
    simp [c4mergedDocG, noPairedJ, noPairedFlds, noPairedList, hname, hP2nop, hligsNP,
      hk1, hk2, hk3, hk4, hk5]
  have hhp : has_paired (c4mergedDocG nameV pd S ligs) = false :=
    noPaired_hasPairedJ _ hmnop
  obtain ⟨v1, hv1⟩ := firstLigandEntry_head ligs hne hall
  have hscanD : seqLigandScan (c4destDocG nameV pd ligs) = some v1 := by
    simp [seqLigandScan, c4destDocG, fget, firstLigandEntry, hv1]
  have hscanO : seqLigandScan (c4mergedDocG nameV pd S ligs) = some v1 := by
    simp [seqLigandScan, c4mergedDocG, fget, firstLigandEntry, hv1]
  have hligDest : ligOr (seqLigandScan (c4destDocG nameV pd ligs)) (c4destDocG nameV pd ligs)
      = some v1 := by
    rcases ht : pyTruthy v1 with _ | _ <;>
      simp [ligOr, hscanD, ht, find_ligand_value]
  have hligOut : ligOr (seqLigandScan (c4mergedDocG nameV pd S ligs))
      (c4mergedDocG nameV pd S ligs) = some v1 := by
    rcases ht : pyTruthy v1 with _ | _ <;>
      simp [ligOr, hscanO, ht, find_ligand_value]
  have hfkp : filterKeyEntries ligs "protein" = .nil := filterKeyEntries_ligs_protein ligs hall
  have hfkl : filterKeyEntries ligs "ligand" = ligs := filterKeyEntries_ligs_ligand ligs hall
  have h1 : ¬ fget (copyFields pd S) "unpairedMsa" = none := by
    intro hc
    simp only [fhas, hc, Option.isSome_none] at hP2has
    exact absurd hP2has (by decide)
  have h2 : fget (copyFields pd S) "pairedMsa" = none := by
    rcases hc : fget (copyFields pd S) "pairedMsa" with _ | w
    · rfl
    · simp only [fhas, hc, Option.isSome_some] at hP2paired
      exact absurd hP2paired (by decide)
  have hlen : ¬ (jlen ligs < 1) := by
    cases ligs with
    | nil => exact absurd rfl hne
    | cons e t => simp [jlen]
  simp only [c4mergedDocG] at hhp
  simp only [c4destDocG, c4mergedDocG] at hligDest hligOut
  simp only [output_is_complete, c4mergedDocG, c4destDocG, jGetOpt, fget, optEqPy,
    String.reduceEq, reduceIte, filterKeyEntries, elemHas, fhas, jlen, lget,
    hfkp, hfkl, hligDest, hligOut]
  simp [h1, h2, hhp, hlen, hfkp, hfkl, jlen]

def c4pdW : JFields := .cons "id" (J.str "A") (.cons "sequence" (J.str "S") .nil)

def c4SW : JFields := .cons "id" (J.str "A") (.cons "unpairedMsa" (J.str "m") .nil)

def c4SBW : JFields := .cons "id" (J.str "B") (.cons "unpairedMsa" (J.str "m2") .nil)

def c4donorEntriesW : JList :=
  .cons (J.obj (.cons "protein" (J.obj c4SW) .nil))
    (.cons (J.obj (.cons "protein" (J.obj c4SBW) .nil)) .nil)

def c4ligsW : JList :=
  .cons (J.obj (.cons "ligand" (J.str "L1") .nil))
    (.cons (J.obj (.cons "ligand" (J.str "L2") .nil)) .nil)

def c4scW : List (J × JFields) := [(J.str "A", c4SW), (J.str "B", c4SBW)]

theorem C4_amended_round_trip_witness :
    (match mergeTree (c4donorDocG c4donorEntriesW)
        (c4destDocG (J.str "j") c4pdW c4ligsW) with
      | .ok mm => output_is_complete mm (c4destDocG (J.str "j") c4pdW c4ligsW)
      | .error _ => false) = true :=
  C4_amended_round_trip (J.str "j") (J.str "A") c4pdW c4SW c4ligsW c4donorEntriesW c4scW
    (by decide) (by decide) (by decide) (by decide) (by decide) (by rfl) (by decide)
    (by decide) (by decide) (by decide)

/- ── Serialization: json.dumps(d, indent=2, separators=(",", ": ")) ──
Only the escapes that can occur in the documents of this development are
implemented (quote, backslash, newline, tab, carriage return); the pipeline
keys and values are plain ASCII. -/

def indentStr (n : Nat) : String := String.mk (List.replicate (2 * n) ' ')

def jsonEscapeChar (c : Char) : List Char :=
  if c = '"' then ['\\', '"']
  else if c = '\\' then ['\\', '\\']
  else if c = '\n' then ['\\', 'n']
  else if c = '\t' then ['\\', 't']
  else if c = '\r' then ['\\', 'r']
  else [c]

def jsonQuote (s : String) : String :=
  String.mk ('"' :: (s.data.bind jsonEscapeChar ++ ['"']))

mutual

def dumps (j : J) (lvl : Nat) : String :=
  match j with
  | .null => "null"
  | .bool true => "true"
  | .bool false => "false"
  | .num n => toString n
  | .str s => jsonQuote s
  | .arr .nil => "[]"
  | .arr (.cons h t) =>
    "[\n" ++ dumpsList (.cons h t) (lvl + 1) ++ "\n" ++ indentStr lvl ++ "]"
  | .obj .nil => "\x7b\x7d"
  | .obj (.cons k v t) =>
    "\x7b\n" ++ dumpsFields (.cons k v t) (lvl + 1) ++ "\n" ++ indentStr lvl ++ "\x7d"

def dumpsList (l : JList) (lvl : Nat) : String :=
  match l with
  | .nil => ""
  | .cons h .nil => indentStr lvl ++ dumps h lvl
  | .cons h t => indentStr lvl ++ dumps h lvl ++ ",\n" ++ dumpsList t lvl

def dumpsFields (l : JFields) (lvl : Nat) : String :=
  match l with
  | .nil => ""
  | .cons k v .nil => indentStr lvl ++ jsonQuote k ++ ": " ++ dumps v lvl
  | .cons k v t => indentStr lvl ++ jsonQuote k ++ ": " ++ dumps v lvl ++ ",\n" ++ dumpsFields t lvl

end

/- ── collapse (batch_reuse_msa.py lines 44-48) ──
Model of re.sub with the pattern ("templateIndices"\s*:\s*\[)([\s0-9,]+?)(\])
and the replacement that applies .replace("\\n","") — the two-character
sequence backslash n, which cannot occur inside the matched character class —
followed by .replace(" ",""). The scanner advances one character on a failed
match and continues after the whole match on success, exactly as re.sub. -/

def pyReplaceF (fuel : Nat) (s old new : List Char) : List Char :=
  match fuel, s with
  | 0, s => s
  | _ + 1, [] => []
  | f + 1, c :: t =>
    if old.isPrefixOf (c :: t) then new ++ pyReplaceF f ((c :: t).drop old.length) old new
    else c :: pyReplaceF f t old new
termination_by structural fuel

def pyStrReplace (s old new : List Char) : List Char :=
  pyReplaceF (s.length + 1) s old new

def TI_LIT : List Char := "\"templateIndices\"".data

def isSpacePy (c : Char) : Bool :=
  c = ' ' || c = '\t' || c = '\n' || c = '\r' || c = '\x0b' || c = '\x0c'

def tiClass (c : Char) : Bool := isSpacePy c || c.isDigit || c = ','

def tryMatchTI (s : List Char) : Option (List Char × List Char × List Char) :=
  if TI_LIT.isPrefixOf s then
    let r1 := s.drop TI_LIT.length
    let ws1 := r1.takeWhile isSpacePy
    let r2 := r1.drop ws1.length
    match r2 with
    | ':' :: r3 =>
      let ws2 := r3.takeWhile isSpacePy
      let r4 := r3.drop ws2.length
      match r4 with
      | '[' :: r5 =>
        let g2 := r5.takeWhile tiClass
        let r6 := r5.drop g2.length
        match g2, r6 with
        | [], _ => none
        | _, ']' :: r7 => some (TI_LIT ++ ws1 ++ [':'] ++ ws2 ++ ['['], g2, r7)
        | _, _ => none
      | _ => none
    | _ => none
  else none

def collapseF (fuel : Nat) (s : List Char) : List Char :=
  match fuel, s with
  | 0, s => s
  | _ + 1, [] => []
  | f + 1, c :: t =>
    match tryMatchTI (c :: t) with
    | some (g1, g2, rest) =>
      g1 ++ pyStrReplace (pyStrReplace g2 ['\\', 'n'] []) [' '] []
        ++ ']' :: collapseF f rest
    | none => c :: collapseF f t
termination_by structural fuel

def collapse (s : String) : String := String.mk (collapseF (s.data.length + 1) s.data)

def merge_json (s d : J) : Except PyErr String :=
  (mergeTree s d).map (fun m => collapse (dumps m 0))

def c8donor : J :=
  J.obj (.cons "sequences" (J.arr
    (.cons (J.obj (.cons "protein"
      (J.obj (.cons "id" (J.str "A")
        (.cons "unpairedMsa" (J.str "U")
          (.cons "templateIndices" (J.arr (.cons (J.num 1) (.cons (J.num 2) .nil))) .nil)))) .nil))
      .nil)) .nil)

def c8dest : J :=
  J.obj (.cons "name" (J.str "j")
    (.cons "sequences" (J.arr
      (.cons (J.obj (.cons "protein"
        (J.obj (.cons "id" (J.str "A") (.cons "sequence" (J.str "S") .nil))) .nil))
      (.cons (J.obj (.cons "ligand" (J.str "L") .nil)) .nil))) .nil))

set_option maxRecDepth 4000 in
/-- C8: evaluating merge_json at a donor whose templateIndices array is
serialized across several lines shows that the canonicalization pass removes
the space characters inside the bracketed value but keeps the newline
characters: the replacement targeting newlines matches the two-character
sequence backslash n, which cannot occur inside the matched run, so the
output is not free of embedded whitespace. -/
theorem C8_newlines_survive_collapse :
    (match merge_json c8donor c8dest with
      | .ok out =>
        listContainsSub out.data ("templateIndices".data)
          && listContainsSub out.data ("[\n1,\n2\n]".data)
          && !listContainsSub out.data ("[1,2]".data)
      | .error _ => false) = true := by
  decide

/- ── parse_entries and base_key (batch_reuse_msa.py lines 28-39) ──
job.split("-", 1) with no separator makes the two-name unpacking raise
ValueError; a failed re.match makes .group raise AttributeError. The
non-greedy ([^_]*?_noM) prefix match takes the characters before the first
underscore and requires the marker to follow immediately. -/

def splitFirst : List Char → Char → Option (List Char × List Char)
  | [], _ => none
  | c :: t, sep =>
    if c = sep then some ([], t)
    else
      match splitFirst t sep with
      | some (a, b) => some (c :: a, b)
      | none => none

def parse_entries (job : String) : Except PyErr (String × String) :=
  match splitFirst job.data '-' with
  | none => .error .valueErr
  | some (e1, rest) =>
    if listContainsSub rest ("_noM".data) then
      let t := rest.takeWhile (fun c => !(c = '_'))
      if ("_noM".data).isPrefixOf (rest.drop t.length) then
        .ok (String.mk e1, String.mk (t ++ "_noM".data))
      else .error .attrErr
    else
      let t := rest.takeWhile (fun c => !(c = '_') && !(c = '-'))
      if t.isEmpty then .error .attrErr else .ok (String.mk e1, String.mk t)

def KHQ : List Char := ['K', 'H', 'Q']

/-- Head test for the regex fragment _[KHQ]\d at the current position. -/
def ptmTail : List Char → Bool
  | m :: d :: _ => KHQ.contains m && d.isDigit
  | _ => false

/-- Model of re.sub(r'_[KHQ]\d.*', '', e2): at each position, if the pattern
matches, the match extends to the end of the line (dot does not match a
newline) and scanning resumes at that newline; otherwise the character is
kept. -/
def bkStripF (fuel : Nat) (s : List Char) : List Char :=
  match fuel, s with
  | 0, s => s
  | _ + 1, [] => []
  | f + 1, c :: t =>
    if c = '_' && ptmTail t then bkStripF f ((t.drop 2).dropWhile (fun ch => !(ch = '\n')))
    else c :: bkStripF f t
termination_by structural fuel

def base_key (e1 e2 : String) : String :=
  e1 ++ "-" ++ String.mk (bkStripF (e2.data.length + 1) e2.data)

/-- Occurrence test for the stripping pattern _[KHQ]\d anywhere in a string. -/
def hasPTM : List Char → Bool
  | [] => false
  | c :: t => (c = '_' && ptmTail t) || hasPTM t

theorem bkStripF_nomatch : ∀ (fuel : Nat) (s : List Char),
    s.length < fuel → hasPTM s = false → bkStripF fuel s = s := by
  intro fuel
  induction fuel with
  | zero => intro s h _; omega
  | succ f ih =>
    intro s h hm
    cases s with
    | nil => simp [bkStripF]
    | cons c t =>
      have hm2 : (c = '_' && ptmTail t) = false ∧ hasPTM t = false := by
        constructor
        · rcases hb : (c = '_' && ptmTail t) with _ | _
          · rfl
          · simp [hasPTM, hb] at hm
        · rcases hb : hasPTM t with _ | _
          · rfl
          · simp [hasPTM, hb] at hm
      simp only [bkStripF, hm2.1, Bool.false_eq_true, if_false]
      rw [ih t (by simp only [List.length_cons] at h; omega) hm2.2]

/-- C9 counterexample: an entry that carries a modification suffix before the
no-modification marker loses the marker: the stripping pattern fires on _K1
and consumes everything after it, so the marker is not preserved. -/
theorem C9_counterexample :
    base_key "X" "Y_K1_noM" = "X-Y" ∧
    listContainsSub (base_key "X" "Y_K1_noM").data ("_noM".data) = false := by
  decide

/-- C9 amended: base_key strips from the first occurrence of an underscore
followed by a class marker (K, H or Q) and a digit through the end of the
entry; when no such pattern occurs the entry is kept verbatim, so the two
cited equations hold, but a no-modification marker that follows a
modification suffix is stripped along with it. -/
theorem C9_amended_base_key (e1 e2 : String) (h : hasPTM e2.data = false) :
    base_key e1 e2 = e1 ++ "-" ++ e2 ∧
    base_key "X" "Y_K123" = "X-Y" ∧
    base_key "X" "Y_noM" = "X-Y_noM" := by
  refine ⟨?_, by decide, by decide⟩
  unfold base_key
  rw [bkStripF_nomatch (e2.data.length + 1) e2.data (by omega) h]

theorem C9_amended_base_key_witness :
    hasPTM ("Y".data) = false ∧
    (base_key "X" "Y" = "X" ++ "-" ++ "Y" ∧
      base_key "X" "Y_K123" = "X-Y" ∧
      base_key "X" "Y_noM" = "X-Y_noM") :=
  ⟨by decide, C9_amended_base_key "X" "Y" (by decide)⟩

/- ── Main pass of batch_reuse_msa.py (lines 101-179) ──
Filesystem facts consumed by the loop (job directory existence, the
single-protein-plus-ligand test, an existing output_msa directory, and the
sorted donor candidate list with the fresh destination document) are supplied
by an environment per job name; the loop body and the two queue/set updates
are translated from the source. The DRY flag is false (real run). -/

def memS : List String → String → Bool
  | [], _ => false
  | a :: t, x => a = x || memS t x

structure JobEnv where
  hasDir : Bool
  isSPL : Bool
  hasOut : Bool
  cands : List J
  fresh : J

structure BState where
  msaArray : List String
  waiting : List String
  seenBase : List String
  baseDone : List String
  warnN : Nat
  skipN : Nat
  copyN : Nat
deriving DecidableEq

def initState : BState := ⟨[], [], [], [], 0, 0, 0⟩

/-- Triage step (batch_reuse_msa.py lines 174-179): a job whose base key is
already satisfied or claimed joins the waiting queue, otherwise it joins the
generation queue and claims its base key. -/
def triage (st : BState) (job bkey : String) : BState :=
  if memS st.baseDone bkey || memS st.seenBase bkey then
    { st with waiting := st.waiting ++ [job] }
  else
    { st with msaArray := st.msaArray ++ [job], seenBase := bkey :: st.seenBase }

def stepJob (env : String → JobEnv) (st : BState) (job : String) : Except PyErr BState :=
  match parse_entries job with
  | .error e => .error e
  | .ok (e1, e2) =>
    let bkey := base_key e1 e2
    let jb := env job
    if !jb.hasDir then .ok { st with warnN := st.warnN + 1 }
    else if jb.isSPL then
      .ok { st with skipN := st.skipN + 1, baseDone := bkey :: st.baseDone }
    else if jb.hasOut then
      .ok { st with skipN := st.skipN + 1, baseDone := bkey :: st.baseDone }
    else
      match jb.cands with
      | c :: _ =>
        match merge_json c jb.fresh with
        | .ok _ => .ok { st with copyN := st.copyN + 1, baseDone := bkey :: st.baseDone }
        | .error _ => .ok (triage { st with warnN := st.warnN + 1 } job bkey)
      | [] => .ok (triage st job bkey)

def runBatch (env : String → JobEnv) : List String → BState → Except PyErr BState
  | [], st => .ok st
  | j :: js, st =>
    match stepJob env st j with
    | .error e => .error e
    | .ok st2 => runBatch env js st2

def run_main_pass (env : String → JobEnv) (jobs : List String) : Except PyErr BState :=
  runBatch env jobs initState

def bkeyOf (job : String) : String :=
  match parse_entries job with
  | .ok (e1, e2) => base_key e1 e2
  | .error _ => ""

/-- Reference characterization: the jobs whose base key did not occur
earlier (first occurrences). -/
def firstOcc (seen : List String) : List String → List String
  | [] => []
  | j :: js =>
    if memS seen (bkeyOf j) then firstOcc seen js
    else j :: firstOcc (bkeyOf j :: seen) js

/-- Reference characterization: the jobs whose base key occurred earlier. -/
def laterOcc (seen : List String) : List String → List String
  | [] => []
  | j :: js =>
    if memS seen (bkeyOf j) then j :: laterOcc seen js
    else laterOcc (bkeyOf j :: seen) js

theorem firstOcc_nodup : ∀ (jobs : List String) (seen : List String),
    ((firstOcc seen jobs).map bkeyOf).Nodup ∧
    (∀ x ∈ (firstOcc seen jobs).map bkeyOf, memS seen x = false) := by
  intro jobs
  induction jobs with
  | nil => intro seen; simp [firstOcc]
  | cons j js ih =>
    intro seen
    simp only [firstOcc]
    split
    · exact ih seen
    · rename_i hni
      have ih2 := ih (bkeyOf j :: seen)
      constructor
      · simp only [List.map_cons, List.nodup_cons]
        refine ⟨fun hmem => ?_, ih2.1⟩
        have := ih2.2 (bkeyOf j) hmem
        simp [memS] at this
      · intro x hx
        simp only [List.map_cons, List.mem_cons] at hx
        rcases hx with hx | hx
        · subst hx
          simpa using hni
        · have := ih2.2 x hx
          simp only [memS, Bool.or_eq_false_iff] at this
          exact this.2

theorem runBatch_triage_aux (env : String → JobEnv) : ∀ (jobs : List String) (st : BState),
    (∀ j ∈ jobs, (env j).hasDir = true ∧ (env j).isSPL = false ∧
      (env j).hasOut = false ∧ (env j).cands = [] ∧ (parse_entries j).isOk = true) →
    st.baseDone = [] →
    ∃ st2, runBatch env jobs st = .ok st2 ∧
      st2.msaArray = st.msaArray ++ firstOcc st.seenBase jobs ∧
      st2.waiting = st.waiting ++ laterOcc st.seenBase jobs := by
  intro jobs
  induction jobs with
  | nil =>
    intro st _ _
    exact ⟨st, rfl, by simp [firstOcc], by simp [laterOcc]⟩
  | cons j js ih =>
    intro st hc hbd
    obtain ⟨hdir, hspl, hout, hcands, hpok⟩ := hc j (by simp)
    rcases hp : parse_entries j with e | pr
    · rw [hp] at hpok; simp [Except.isOk, Except.toBool] at hpok
    · obtain ⟨e1, e2⟩ := pr
      have hbk : bkeyOf j = base_key e1 e2 := by simp [bkeyOf, hp]
      simp only [runBatch, stepJob, hp, hdir, hspl, hout, hcands, triage, hbd,
        Bool.not_true, Bool.false_eq_true, if_false, memS, Bool.false_or]
      rw [← hbk]
      rcases hseen : memS st.seenBase (bkeyOf j) with _ | _
      · -- first occurrence: joins the generation queue
        simp only [Bool.false_eq_true, if_false]
        have hstep := ih ({ st with msaArray := st.msaArray ++ [j], seenBase := bkeyOf j :: st.seenBase, baseDone := ([] : List String) }) (fun x hx => hc x (by simp [hx])) rfl
        have step2 := hstep
        obtain ⟨st2, hrun, hmsa, hwait⟩ := step2
        refine ⟨st2, hrun, ?_, ?_⟩
        · rw [hmsa]
          simp only [firstOcc, hseen, Bool.false_eq_true, if_false]
          simp
        · rw [hwait]
          simp only [laterOcc, hseen, Bool.false_eq_true, if_false]
      · -- repeated base key: joins the waiting queue
        simp only [if_true]
        have step2 := ih ({ st with waiting := st.waiting ++ [j], baseDone := [] })
          (fun x hx => hc x (by simp [hx])) rfl
        obtain ⟨st2, hrun, hmsa, hwait⟩ := step2
        refine ⟨st2, hrun, ?_, ?_⟩
        · rw [hmsa]
          simp only [firstOcc, hseen, if_true]
        · rw [hwait]
          simp only [laterOcc, hseen, if_true]
          simp

/-- C5: with no donors available and each job having a directory, not being a
single-protein-ligand job, and lacking an existing output, the main pass
routes the first job of each base key to the generation queue and every later
job with that base key to the waiting queue; the generation-queue base keys
are pairwise distinct. -/
theorem C5_triage_first_wins (env : String → JobEnv) (jobs : List String)
    (h : ∀ j ∈ jobs, (env j).hasDir = true ∧ (env j).isSPL = false ∧
      (env j).hasOut = false ∧ (env j).cands = [] ∧ (parse_entries j).isOk = true) :
    (match run_main_pass env jobs with
      | .ok st => st.msaArray = firstOcc [] jobs ∧ st.waiting = laterOcc [] jobs ∧
          (st.msaArray.map bkeyOf).Nodup
      | .error _ => False) := by
  obtain ⟨st2, hrun, hmsa, hwait⟩ := runBatch_triage_aux env jobs initState h rfl
  rw [run_main_pass, hrun]
  simp only [initState] at hmsa hwait
  refine ⟨by simpa using hmsa, by simpa using hwait, ?_⟩
  rw [hmsa]
  simpa using (firstOcc_nodup jobs []).1

def c5env : String → JobEnv := fun _ => ⟨true, false, false, [], J.null⟩

theorem C5_triage_first_wins_witness :
    (match run_main_pass c5env ["A-B", "A-B_K1", "A-B_K2"] with
      | .ok st => st.msaArray = ["A-B"] ∧ st.waiting = ["A-B_K1", "A-B_K2"]
      | .error _ => False) := by
  have h := C5_triage_first_wins c5env ["A-B", "A-B_K1", "A-B_K2"] (by decide)
  rw [show run_main_pass c5env ["A-B", "A-B_K1", "A-B_K2"]
      = Except.ok (⟨["A-B"], ["A-B_K1", "A-B_K2"], ["A-B"], [], 0, 0, 0⟩ : BState)
    from rfl] at h ⊢
  exact ⟨h.1.trans (by decide), h.2.1.trans (by decide)⟩

theorem splitFirst_none (s : List Char) (sep : Char)
    (h : s.contains sep = false) : splitFirst s sep = none := by
  induction s with
  | nil => rfl
  | cons c t ih =>
    simp only [List.contains_cons, Bool.or_eq_false_iff] at h
    have hc : ¬ c = sep := by
      intro he; subst he
      simp at h
    simp only [splitFirst, hc, if_false]
    rw [ih h.2]

/-- C6 amended: a job identifier with no separator makes the key derivation
fail (the two-name unpacking of job.split raises), and the failure is not
caught at the job boundary: the whole batch run aborts at the malformed job,
whatever jobs follow it. -/
theorem C6_amended_malformed_aborts (env : String → JobEnv) (st : BState) (j : String)
    (h : j.data.contains '-' = false) :
    parse_entries j = .error PyErr.valueErr ∧
    (∀ js : List String, runBatch env (j :: js) st = .error PyErr.valueErr) := by
  have hp : parse_entries j = .error PyErr.valueErr := by
    simp [parse_entries, splitFirst_none j.data '-' h]
  exact ⟨hp, fun js => by simp [runBatch, stepJob, hp]⟩

theorem C6_amended_malformed_aborts_witness :
    ("AB".data.contains '-' = false) ∧
    (parse_entries "AB" = .error PyErr.valueErr ∧
      runBatch c5env ["AB", "C-D"] initState = .error PyErr.valueErr) := by
  have h := C6_amended_malformed_aborts c5env initState "AB" (by decide)
  exact ⟨by decide, h.1, h.2 ["C-D"]⟩

/-- C6 counterexample: a batch containing a malformed identifier between two
well-formed jobs aborts with the uncaught unpacking error instead of
continuing to the next job, because the per-job parse in the main loop is
outside any exception handler. -/
theorem C6_counterexample :
    run_main_pass c5env ["A-B", "AB", "C-D"] = .error PyErr.valueErr := by
  rfl
